import Mathlib

/-!
# Stake module of gaia: validator set derivation and tick processing

A shallow embedding of `modules/stake/types.go`, `modules/stake/tick.go` and the
`ValidateBasic` functions of `modules/stake/tx.go`.

Conventions of the embedding.
* `int64` fields are `Int`; the embedded functions of `types.go` only copy and compare
  them, so no overflow can occur there. `uint64` heights are `Nat` with an explicit
  `% 2 ^ 64` wherever the source subtracts.
* A byte slice is a `List Nat` (each entry a byte); `bytes.Compare` is the
  lexicographic three-way comparison.
* `crypto.PubKey` is represented by its serialisation `PubKey.Bytes()`; `PubKey.Equals`
  is equality of that serialisation. The key without inner key, for which
  `PubKey.Empty()` holds, is represented by the empty byte list.
* A `Candidates` slice of pointers is a list of values: the pointers of a slice built
  by `loadCandidates` are pairwise distinct, so in-place mutation through them is an
  update of the list entry.
* `saveCandidate(store, c)` writes the store only; the functions below return the
  slice, so the store is not part of their result.
* `wire.ReadBinaryBytes(bytes, v)` is called in `tick.go` with the record `v` itself,
  not its address: the call returns an error or `nil` and leaves the caller's `v` as
  it was. The two queue loops carry that variable explicitly and take a bound on their
  rounds.
-/

namespace Stake

/-! ## Byte strings -/

/-- Three-way lexicographic comparison of byte slices, Go's `bytes.Compare`:
`-1` when `a < b`, `0` when `a = b`, `1` when `a > b`. -/
def bytesCompare : List Nat → List Nat → Int
  | [], [] => 0
  | [], _ :: _ => -1
  | _ :: _, [] => 1
  | x :: xs, y :: ys =>
    if x < y then -1 else if y < x then 1 else bytesCompare xs ys

/-! ## Data model (`types.go`) -/

/-- An `sdk.Actor`: chain, application and address bytes. -/
structure Actor where
  ChainID : String
  App : String
  Address : List Nat
  deriving DecidableEq, Repr

/-- `Actor.Empty()`: the address has no bytes. -/
def Actor.Empty (a : Actor) : Bool := a.Address.isEmpty

/-- `CandidateStatus`: `Active = 0x00`, `Unbonded = 0x01`. -/
inductive CandidateStatus where
  | Active
  | Unbonded
  deriving DecidableEq, Repr

/-- `Description`: description fields for a candidate. -/
structure Description where
  Moniker : String
  Identity : String
  Website : String
  Details : String
  deriving DecidableEq, Repr

/-- `Candidate`: the record kept for each public key. `PubKey` holds `PubKey.Bytes()`. -/
structure Candidate where
  Status : CandidateStatus
  PubKey : List Nat
  Owner : Actor
  SharesPool : Int
  SharesIssuedDelegator : Int
  Shares : Int
  VotingPower : Int
  Description : Description
  deriving DecidableEq, Repr

/-- `Validator` is declared as `type Validator Candidate`: the same record. -/
abbrev Validator := Candidate

/-- `Candidate.validator()`: a copy of the candidate as a validator. -/
def Candidate.validator (c : Candidate) : Validator := c

/-- An `abci.Validator`: serialised public key and power. -/
structure ABCIValidator where
  PubKey : List Nat
  Power : Int
  deriving DecidableEq, Repr

/-- `Validator.ABCIValidator()`. -/
def Validator.ABCIValidator (v : Validator) : ABCIValidator :=
  { PubKey := v.PubKey, Power := v.VotingPower }

/-- The part of `Params` the embedded functions read: `MaxVals` (a `uint16`). -/
structure Params where
  MaxVals : Nat
  deriving DecidableEq, Repr

/-- `Candidates`: list of candidates. -/
abbrev Candidates := List Candidate

/-- `Validators`: list of validators. -/
abbrev Validators := List Validator

/-! ## Ordering and sorting of candidates -/

/-- The body of `Candidates.Less` on the two records at the compared positions:
higher voting power first, ties by smaller public-key bytes. -/
def Candidate.less (a b : Candidate) : Bool :=
  if a.VotingPower ≠ b.VotingPower then decide (a.VotingPower > b.VotingPower)
  else decide (bytesCompare a.PubKey b.PubKey = -1)

/-- `Candidates.Less(i, j)` of the sort interface (an index out of range panics in Go;
here it yields `false`). -/
def Candidates.Less (cs : Candidates) (i j : Nat) : Bool :=
  match cs[i]?, cs[j]? with
  | some a, some b => a.less b
  | _, _ => false

/-- The order handed to the sorting routine: `a` may stand before `b` when `b` is not
`Less` than `a`. -/
def Candidate.notAfter (a b : Candidate) : Prop := b.less a = false

instance : DecidableRel Candidate.notAfter := fun a b =>
  inferInstanceAs (Decidable (b.less a = false))

/-- `Candidates.Sort()`: `sort.Sort(cs)` of the Go standard library, which returns a
permutation in which no later element is `Less` than an earlier one; modelled by
insertion sort (`Sort_unique` below: on pairwise distinct keys every such
permutation is this one). -/
def Candidates.Sort (cs : Candidates) : Candidates :=
  List.insertionSort Candidate.notAfter cs

/-- What `sort.Sort` guarantees of a sorting routine over `Candidates`. -/
def IsCandidateSort (sort : Candidates → Candidates) : Prop :=
  ∀ cs, (sort cs).Perm cs ∧ (sort cs).Pairwise Candidate.notAfter

/-- First loop of `updateVotingPower`: every candidate's voting power becomes its
share count. -/
def setVotingPower (c : Candidate) : Candidate :=
  if c.VotingPower ≠ c.Shares then { c with VotingPower := c.Shares } else c

/-- Second loop of `updateVotingPower` from position `i` on: the power of every
candidate at a position `≥ MaxVals` is truncated to `0`. -/
def truncatePower (maxVals : Nat) : Nat → Candidates → Candidates
  | _, [] => []
  | i, c :: cs =>
    (if i ≥ maxVals then { c with VotingPower := 0 } else c) ::
      truncatePower maxVals (i + 1) cs

/-- `Candidates.updateVotingPower` with the sorting routine as a parameter. -/
def Candidates.updateVotingPowerWith (sort : Candidates → Candidates)
    (cs : Candidates) (params : Params) : Candidates :=
  truncatePower params.MaxVals 0 (sort (cs.map setVotingPower))

/-- `Candidates.updateVotingPower(store, params)`: update the voting power, sort,
truncate, and return the slice. -/
def Candidates.updateVotingPower (cs : Candidates) (params : Params) : Candidates :=
  Candidates.updateVotingPowerWith Candidates.Sort cs params

/-- The loop of `Candidates.Validators`: copy candidates until the first one whose
voting power is zero. -/
def validatorsLoop : Candidates → Validators
  | [] => []
  | c :: cs => if c.VotingPower = 0 then [] else c.validator :: validatorsLoop cs

/-- `Candidates.Validators()`. -/
def Candidates.Validators (cs : Candidates) : Validators :=
  match cs with
  | [c] => if c.VotingPower = 0 then [] else validatorsLoop [c]
  | _ => validatorsLoop cs

/-! ## Validators and the change list -/

/-- The body of `Validators.Less` on the two records at the compared positions. -/
def Validator.less (a b : Validator) : Bool :=
  decide (bytesCompare a.PubKey b.PubKey = -1)

/-- `Validators.Less(i, j)` of the sort interface. -/
def Validators.Less (vs : Validators) (i j : Nat) : Bool :=
  match vs[i]?, vs[j]? with
  | some a, some b => Validator.less a b
  | _, _ => false

/-- The order handed to the sorting routine for validators. -/
def Validator.notAfter (a b : Validator) : Prop := Validator.less b a = false

instance : DecidableRel Validator.notAfter := fun a b =>
  inferInstanceAs (Decidable (Validator.less b a = false))

/-- `Validators.Sort()`: sort validators by public key (`sort.Sort`, modelled by
insertion sort as for `Candidates.Sort`). -/
def Validators.Sort (vs : Validators) : Validators :=
  List.insertionSort Validator.notAfter vs

/-- The entry emitted for a validator that left the set: its key with power `0`. -/
def removedEntry (v : Validator) : ABCIValidator := { PubKey := v.PubKey, Power := 0 }

/-- The loops of `validatorsChanged` with the head `v` of the remaining old set fixed:
walks the remaining new set `vs2[j:]`; `k` continues with `vs[i+1:]`. -/
def changedStep (v : Validator) (vs : Validators) (k : Validators → List ABCIValidator) :
    Validators → List ABCIValidator
  | [] => (v :: vs).map removedEntry
  | w :: ws =>
    if v.PubKey ≠ w.PubKey then
      if bytesCompare v.PubKey w.PubKey = 1 then
        Validator.ABCIValidator w :: changedStep v vs k ws
      else removedEntry v :: k (w :: ws)
    else if v.VotingPower ≠ w.VotingPower then Validator.ABCIValidator w :: k ws
    else k ws

/-- The three loops of `validatorsChanged` on the sorted sets, from positions `i`, `j`:
the arguments are `vs[i:]` and `vs2[j:]`, the result is what is appended to `changed`
(see `changedLoop_cons_cons` for the unfolded loop body). -/
def changedLoop : Validators → Validators → List ABCIValidator
  | [], vs2 => vs2.map Validator.ABCIValidator
  | v :: vs, vs2 => changedStep v vs (changedLoop vs) vs2

/-- `Validators.validatorsChanged(vs2)`: determine all changed validators between two
validator sets. -/
def Validators.validatorsChanged (vs vs2 : Validators) : List ABCIValidator :=
  changedLoop (Validators.Sort vs) (Validators.Sort vs2)

/-- `UpdateValidatorSet(store, params)`, where `candidates` is what
`loadCandidates(store)` returns. -/
def UpdateValidatorSet (candidates : Candidates) (params : Params) : List ABCIValidator :=
  let v1 := Candidates.Validators candidates
  let v2 := Candidates.Validators (Candidates.updateVotingPower candidates params)
  Validators.validatorsChanged v1 v2

/-- A candidate with the given key bytes, shares and voting power, other fields blank
(used for concrete evaluations). -/
def mkCandidate (pk : List Nat) (shares vp : Int) : Candidate :=
  { Status := CandidateStatus.Active, PubKey := pk, Owner := ⟨"", "", []⟩,
    SharesPool := 0, SharesIssuedDelegator := 0, Shares := shares, VotingPower := vp,
    Description := ⟨"", "", "", ""⟩ }

/-- Strictly increasing public-key bytes, the order `Validators.Sort` produces on
pairwise distinct keys. -/
def Validator.keyLt (a b : Validator) : Prop := bytesCompare a.PubKey b.PubKey = -1

/-- The entries a change list is meant to hold for the sets `old` and `new`: a key only
in `new` with its new power, a key only in `old` with power `0`, a key in both whose
power differs with its new power. -/
def ChangedEntry (old new : Validators) (e : ABCIValidator) : Prop :=
  (∃ w ∈ new, e = Validator.ABCIValidator w ∧ ∀ v ∈ old, v.PubKey ≠ w.PubKey) ∨
  (∃ v ∈ old, e = removedEntry v ∧ ∀ w ∈ new, v.PubKey ≠ w.PubKey) ∨
  (∃ v ∈ old, ∃ w ∈ new, v.PubKey = w.PubKey ∧ v.VotingPower ≠ w.VotingPower ∧
    e = Validator.ABCIValidator w)

/-- The change of one candidate's shares between two ticks (made by a bond or unbond
transaction, outside `types.go`): the candidate with key `pk` gets `shares`. -/
def setShares (pk : List Nat) (shares : Int) (cs : Candidates) : Candidates :=
  cs.map (fun c => if c.PubKey = pk then { c with Shares := shares } else c)

/-! ## Tick processing (`tick.go`) -/

/-- Modelled from the spec: `Decimal`, the exact rational type of exchange rates,
rewards and commission (its declaration is not in the sources at hand). `Add`, `Sub`
and `Mul` are the field operations of `ℚ`. -/
abbrev Decimal := ℚ

/-- Modelled from the spec: `Decimal.IntPart()`, the value truncated to an integer. -/
def Decimal.IntPart (d : Decimal) : Int := Int.tdiv d.num d.den

/-- A `coin.Coin`: denomination and amount. -/
structure Coin where
  Denom : String
  Amount : Int
  deriving DecidableEq

/-- `coin.Coins`. -/
abbrev Coins := List Coin

/-- How a tick function can fail: the errors `tick.go` returns, and the two runtime
failures of its unguarded operations. -/
inductive TickError where
  /-- The `fmt.Errorf` of `processQueueUnbond` for a missing delegatee. -/
  | missingDelegatee
  /-- An error returned by `sendCoins` or `creditAcc`. -/
  | transfer (code : Nat)
  /-- A `Decimal.Div` whose divisor is zero. -/
  | divisionByZero
  /-- The validator has no bond to itself: `valSelfBond` is `nil` when read. -/
  | missingSelfBond
  /-- An error returned by `LoadQueue`, `wire.ReadBinaryBytes` or `loadDelegateeBonds`. -/
  | external (code : Nat)
  deriving DecidableEq

/-- Modelled from the spec: `Decimal.Div`; division by zero is undefined and aborts
the tick. -/
def Decimal.Div (a b : Decimal) : Except TickError Decimal :=
  if b = 0 then Except.error TickError.divisionByZero else Except.ok (a / b)

/-- Modelled from the spec: `QueueElemUnbond` (its declaration is not in the sources at
hand): delegatee, originating account, queued bond tokens, height at insertion. -/
structure QueueElemUnbond where
  Delegatee : Actor
  Account : Actor
  BondTokens : Decimal
  HeightAtInit : Nat
  deriving DecidableEq

/-- Modelled from the spec: `QueueElemModComm` (its declaration is not in the sources
at hand): delegatee and height at insertion of a commission-rate change. -/
structure QueueElemModComm where
  Delegatee : Actor
  HeightAtInit : Nat
  deriving DecidableEq

/-- Modelled from the spec: the per-delegatee record `tick.go` reads through
`loadDelegateeBonds` (its declaration is not in the sources at hand). -/
structure DelegateeBond where
  Delegatee : Actor
  Account : Actor
  VotingPower : Decimal
  TotalBondTokens : Decimal
  Commission : Decimal
  ExchangeRate : Decimal
  deriving DecidableEq

/-- Modelled from the spec: the per-(delegator, delegatee) record `tick.go` reads
through `loadDelegatorBonds` (its declaration is not in the sources at hand). -/
structure DelegatorBond where
  Delegator : Actor
  BondTokens : Decimal
  deriving DecidableEq

/-- The constants `tick.go` uses and does not declare: `periodUnbonding` and
`periodCommHistory` (both `uint64`), `inflationPerReward`, `bondDenom`. -/
structure Consts where
  periodUnbonding : Nat
  periodCommHistory : Nat
  inflationPerReward : Decimal
  bondDenom : String

/-- The part of the store the tick reads and writes: the unbonding queue (head
first), the delegatee bonds, the delegator bonds of each delegatee, the atom supply,
the commission-history queue (head first). -/
structure Store where
  queueUnbond : List QueueElemUnbond
  delegateeBonds : List DelegateeBond
  delegatorBonds : List (Actor × List DelegatorBond)
  atomSupply : Decimal
  queueCommission : List QueueElemModComm
  deriving DecidableEq

/-- What a tick function leaves behind: the store, the ledger of the account module
(of any type `σ`), and the error it returned, if any. -/
structure Outcome (σ : Type) where
  store : Store
  ledger : σ
  err : Option TickError

/-- `delegateeBonds.Get(delegatee)`: the bond of that delegatee, `nil` when absent. -/
def getDelegateeBond (bonds : List DelegateeBond) (delegatee : Actor) : Option DelegateeBond :=
  bonds.find? (fun b => decide (b.Delegatee = delegatee))

/-- `height - periodUnbonding` in `uint64` arithmetic. -/
def maxHeightToRelease (c : Consts) (height : Nat) : Nat :=
  (height + 2 ^ 64 - c.periodUnbonding % 2 ^ 64) % 2 ^ 64

/-- The zero value of `QueueElemUnbond`, which `var unbond QueueElemUnbond` declares
(line 25). -/
def zeroUnbond : QueueElemUnbond := ⟨⟨"", "", []⟩, ⟨"", "", []⟩, 0, 0⟩

/-- What the calls of `processQueueUnbond` outside `tick.go` return as their error
(none for `nil`): `LoadQueue` (line 19), `wire.ReadBinaryBytes` on what `queue.Peek()`
gives, that is on the head of the queue if there is one (lines 27 and 59), and
`loadDelegateeBonds` (line 33). `wire.ReadBinaryBytes(unbondBytes, unbond)` receives
`unbond` by value: its error is all the caller gets back, the caller's `unbond` is not
written. -/
structure UnbondCalls where
  loadQueue : Option TickError
  readBinaryBytes : Option QueueElemUnbond → Option TickError
  loadDelegateeBonds : Option TickError

/-- The loop of `processQueueUnbond` (lines 40 to 63) for the value `unbond` of the
loop variable, which no statement of the loop assigns: the decode of line 59 gets it by
value. `queue.Pop()` removes the head, `queue.Peek()` reads it. The first argument
bounds the rounds; the result is `none` when the loop has not ended within them. -/
def unbondLoop {σ : Type} (sendCoins : Actor → Actor → Coins → σ → Except TickError σ)
    (readBinaryBytes : Option QueueElemUnbond → Option TickError)
    (c : Consts) (bonds : List DelegateeBond) (maxHeight : Nat) (unbond : QueueElemUnbond) :
    Nat → List QueueElemUnbond → σ → Option (List QueueElemUnbond × σ × Option TickError)
  | 0, queue, s =>
    if !unbond.Delegatee.Empty && decide (unbond.HeightAtInit ≤ maxHeight) then none
    else some (queue, s, none)
  | fuel + 1, queue, s =>
    if !unbond.Delegatee.Empty && decide (unbond.HeightAtInit ≤ maxHeight) then
      -- `queue.Pop()`
      match getDelegateeBond bonds unbond.Delegatee with
      | none => some (queue.tail, s, some TickError.missingDelegatee)
      | some delegateeBond =>
        let coinAmount := unbond.BondTokens * delegateeBond.ExchangeRate
        let payout : Coins := [⟨c.bondDenom, Decimal.IntPart coinAmount⟩]
        match sendCoins delegateeBond.Account unbond.Account payout s with
        | Except.error e => some (queue.tail, s, some e)
        | Except.ok s' =>
          -- get next unbond record: `unbond` is handed over by value
          match readBinaryBytes queue.tail.head? with
          | some e => some (queue.tail, s', some e)
          | none =>
            unbondLoop sendCoins readBinaryBytes c bonds maxHeight unbond fuel queue.tail s'
    else some (queue, s, none)

/-- `processQueueUnbond(sendCoins, store, height)`, with a bound on the rounds of its
loop; `none` when the loop has not ended within the bound. -/
def processQueueUnbond {σ : Type}
    (sendCoins : Actor → Actor → Coins → σ → Except TickError σ) (calls : UnbondCalls)
    (c : Consts) (store : Store) (ledger : σ) (height : Nat) (fuel : Nat) :
    Option (Outcome σ) :=
  match calls.loadQueue with
  | some e => some { store := store, ledger := ledger, err := some e }
  | none =>
    -- `var unbond QueueElemUnbond`, then the decode of the peeked bytes, by value
    let unbond := zeroUnbond
    match calls.readBinaryBytes store.queueUnbond.head? with
    | some e => some { store := store, ledger := ledger, err := some e }
    | none =>
      match calls.loadDelegateeBonds with
      | some e => some { store := store, ledger := ledger, err := some e }
      | none =>
        (unbondLoop sendCoins calls.readBinaryBytes c store.delegateeBonds
            (maxHeightToRelease c height) unbond fuel store.queueUnbond ledger).map
          (fun r =>
            { store := { store with queueUnbond := r.1 }, ledger := r.2.1, err := r.2.2 })

/-- The error `processQueueUnbond` returns before its loop: that of the first failing
call of lines 19 to 36, if any. -/
def unbondError (calls : UnbondCalls) (store : Store) : Option TickError :=
  match calls.loadQueue with
  | some e => some e
  | none =>
    match calls.readBinaryBytes store.queueUnbond.head? with
    | some e => some e
    | none => calls.loadDelegateeBonds

/-- Calls that all succeed. -/
def unbondCallsOk : UnbondCalls := ⟨none, fun _ => none, none⟩

/-- `loadDelegatorBonds(store, delegatee)`. -/
def loadDelegatorBonds (store : Store) (delegatee : Actor) : List DelegatorBond :=
  match store.delegatorBonds.find? (fun p => decide (p.1 = delegatee)) with
  | some p => p.2
  | none => []

/-- `saveDelegatorBonds(store, delegatee, delegators)`. -/
def saveDelegatorBonds (store : Store) (delegatee : Actor) (delegators : List DelegatorBond) :
    Store :=
  { store with
    delegatorBonds := (delegatee, delegators) ::
      store.delegatorBonds.filter (fun p => !decide (p.1 = delegatee)) }

/-- `delegators.Get(delegator)`: position and record of that delegator's bond. -/
def getDelegatorBond : List DelegatorBond → Actor → Option (Nat × DelegatorBond)
  | [], _ => none
  | b :: bs, a =>
    if b.Delegator = a then some (0, b)
    else (getDelegatorBond bs a).map (fun p => (p.1 + 1, p.2))

/-- `delegators[j].BondTokens = delegators[j].BondTokens.Add(x)`. -/
def addBondTokens (delegators : List DelegatorBond) (j : Nat) (x : Decimal) :
    List DelegatorBond :=
  delegators.modify (fun b => { b with BondTokens := b.BondTokens + x }) j

/-- The commission arithmetic of `processValidatorRewards` (lines 159 to 165):
`commTok2Val` from the reward, `TotalBondTokens`, the self-bond tokens and the
commission rate. -/
def commTok2Val (reward totalBondTokens tok1Val commission : Decimal) :
    Except TickError Decimal := do
  let coins1 := totalBondTokens
  let coins2 := coins1 + reward
  let tok1 := totalBondTokens
  let frac ← Decimal.Div (tok1 - tok1Val) tok1
  let preRewardsDel := reward * frac
  let commCoin := preRewardsDel * commission
  let quot ← Decimal.Div (coins2 * tok1) (coins2 * commCoin)
  pure (quot - tok1)

/-- The loop of `processValidatorRewards` over the delegatee bonds, carrying
`totalAtoms`, the store and the ledger. -/
def rewardsLoop {σ : Type} (creditAcc : Actor → Coins → σ → Except TickError σ)
    (c : Consts) (rewardPerPower : Decimal) :
    List DelegateeBond → Decimal → Store → σ → Decimal × Store × σ × Option TickError
  | [], totalAtoms, store, s => (totalAtoms, store, s, none)
  | validator :: rest, totalAtoms, store, s =>
    let vp := validator.VotingPower
    if vp = 0 then (totalAtoms, store, s, none)
    else
      let reward := vp * rewardPerPower
      let totalAtoms' := totalAtoms + reward
      let credit : Coins := [⟨c.bondDenom, Decimal.IntPart reward⟩]
      match creditAcc validator.Account credit s with
      | Except.error e => (totalAtoms', store, s, some e)
      | Except.ok s' =>
        let delegators := loadDelegatorBonds store validator.Delegatee
        match getDelegatorBond delegators validator.Delegatee with
        | none => (totalAtoms', store, s', some TickError.missingSelfBond)
        | some (j, valSelfBond) =>
          match commTok2Val reward validator.TotalBondTokens valSelfBond.BondTokens
              validator.Commission with
          | Except.error e => (totalAtoms', store, s', some e)
          | Except.ok x =>
            rewardsLoop creditAcc c rewardPerPower rest totalAtoms'
              (saveDelegatorBonds store validator.Delegatee (addBondTokens delegators j x)) s'

/-- `processValidatorRewards(creditAcc, store, height, totalVotingPower)`. -/
def processValidatorRewards {σ : Type} (creditAcc : Actor → Coins → σ → Except TickError σ)
    (c : Consts) (store : Store) (ledger : σ) (totalVotingPower : Decimal) : Outcome σ :=
  match Decimal.Div store.atomSupply totalVotingPower with
  | Except.error e => { store := store, ledger := ledger, err := some e }
  | Except.ok q =>
    let rewardPerPower := q * c.inflationPerReward
    let r := rewardsLoop creditAcc c rewardPerPower store.delegateeBonds store.atomSupply
      store ledger
    match r.2.2.2 with
    | some e => { store := r.2.1, ledger := r.2.2.1, err := some e }
    | none => { store := { r.2.1 with atomSupply := r.1 }, ledger := r.2.2.1, err := none }

/-- A transfer capability that always succeeds and records the payment. -/
def recordSend (sender receiver : Actor) (amount : Coins)
    (log : List (Actor × Actor × Coins)) : Except TickError (List (Actor × Actor × Coins)) :=
  Except.ok (log ++ [(sender, receiver, amount)])

/-- A credit capability that always succeeds and records the credit. -/
def recordCredit (receiver : Actor) (amount : Coins)
    (log : List (Actor × Coins)) : Except TickError (List (Actor × Coins)) :=
  Except.ok (log ++ [(receiver, amount)])

/-- An actor of the staking module with the given address bytes. -/
def mkActor (address : List Nat) : Actor := ⟨"", "stake", address⟩

/-- Constants for concrete evaluations: `periodUnbonding = 10`,
`periodCommHistory = 20`, `inflationPerReward = 1/100`, `bondDenom = "fermion"`. -/
def exampleConsts : Consts := ⟨10, 20, 1 / 100, "fermion"⟩

/-- An unbonding entry of delegatee `[1]` for account `[7]`, 4 tokens, queued at
height `h`. -/
def exampleUnbond (h : Nat) : QueueElemUnbond := ⟨mkActor [1], mkActor [7], 4, h⟩

/-- The bond of delegatee `[1]`: voting power 1000, 1000 bonded tokens, the given
commission rate, exchange rate 3/2. -/
def exampleBond (commission : Decimal) : DelegateeBond :=
  ⟨mkActor [1], mkActor [2], 1000, 1000, commission, 3 / 2⟩

/-- A store with the given unbonding queue, the single delegatee `[1]` with the given
commission rate, whose 1000 tokens are bonded half by the delegator `[9]` and half by
the delegatee itself, and an atom supply of 1000. -/
def exampleStore (commission : Decimal) (queue : List QueueElemUnbond) : Store :=
  ⟨queue, [exampleBond commission],
    [(mkActor [1], [⟨mkActor [9], 500⟩, ⟨mkActor [1], 500⟩])], 1000, []⟩

/-- The loop condition of `processQueueUnbond` (line 40) on the peeked entry. -/
def releasable (maxHeight : Nat) (unbond : QueueElemUnbond) : Bool :=
  !unbond.Delegatee.Empty && decide (unbond.HeightAtInit ≤ maxHeight)

/-- `height - commission.HeightAtInit > periodCommHistory` in `uint64` arithmetic, the
age test of `processQueueCommHistory` (line 87). -/
def olderThanHistory (c : Consts) (height : Nat) (commission : QueueElemModComm) : Bool :=
  decide ((height + 2 ^ 64 - commission.HeightAtInit % 2 ^ 64) % 2 ^ 64 > c.periodCommHistory)

/-- The zero value of `QueueElemModComm`, which `var commission QueueElemModComm`
declares (line 80). -/
def zeroModComm : QueueElemModComm := ⟨⟨"", "", []⟩, 0⟩

/-- What the calls of `processQueueCommHistory` outside `tick.go` return as their error
(none for `nil`): `LoadQueue` (line 74) and `wire.ReadBinaryBytes` on the head of the
queue if there is one (lines 82 and 92), which receives `commission` by value. -/
structure CommissionCalls where
  loadQueue : Option TickError
  readBinaryBytes : Option QueueElemModComm → Option TickError

/-- The loop of `processQueueCommHistory` (lines 87 to 96) for the value `commission`
of the loop variable, which no statement of the loop assigns: the decode of line 92
gets it by value. The first argument bounds the rounds; the result is `none` when the
loop has not ended within them. -/
def commHistoryLoop (readBinaryBytes : Option QueueElemModComm → Option TickError)
    (c : Consts) (height : Nat) (commission : QueueElemModComm) :
    Nat → List QueueElemModComm → Option (List QueueElemModComm × Option TickError)
  | 0, queue =>
    if !commission.Delegatee.Empty && olderThanHistory c height commission then none
    else some (queue, none)
  | fuel + 1, queue =>
    if !commission.Delegatee.Empty && olderThanHistory c height commission then
      -- `queue.Pop()`, then the next record: `commission` is handed over by value
      match readBinaryBytes queue.tail.head? with
      | some e => some (queue.tail, some e)
      | none => commHistoryLoop readBinaryBytes c height commission fuel queue.tail
    else some (queue, none)

/-- `processQueueCommHistory(store, height)`, with a bound on the rounds of its loop:
the store it leaves and the error it returns; `none` when the loop has not ended
within the bound. -/
def processQueueCommHistory (calls : CommissionCalls) (c : Consts) (store : Store)
    (height : Nat) (fuel : Nat) : Option (Store × Option TickError) :=
  match calls.loadQueue with
  | some e => some (store, some e)
  | none =>
    -- `var commission QueueElemModComm`, then the decode of the peeked bytes, by value
    let commission := zeroModComm
    match calls.readBinaryBytes store.queueCommission.head? with
    | some e => some (store, some e)
    | none =>
      (commHistoryLoop calls.readBinaryBytes c height commission fuel
          store.queueCommission).map
        (fun r => ({ store with queueCommission := r.1 }, r.2))

/-- The error `processQueueCommHistory` returns before its loop: that of the first
failing call of lines 74 to 85, if any. -/
def commissionError (calls : CommissionCalls) (store : Store) : Option TickError :=
  match calls.loadQueue with
  | some e => some e
  | none => calls.readBinaryBytes store.queueCommission.head?

/-- Calls that all succeed. -/
def commissionCallsOk : CommissionCalls := ⟨none, fun _ => none⟩

/-! ## Transactions (`tx.go`) -/

/-- The errors the `ValidateBasic` functions return. -/
inductive TxError where
  /-- `errCandidateEmpty`. -/
  | candidateEmpty
  /-- `coin.ErrInvalidCoins()`. -/
  | invalidCoins
  /-- `fmt.Errorf("Amount must be > 0")`. -/
  | amountNotPositive
  /-- `fmt.Errorf("Transaction must include some information to modify")`. -/
  | nothingToModify
  /-- `fmt.Errorf("Shares must be > 0")`. -/
  | sharesNotPositive
  /-- `errServiceNameEmpty`. -/
  | serviceNameEmpty
  /-- `errServiceDescEmpty`. -/
  | serviceDescEmpty
  deriving DecidableEq

/-- `PubKey.Empty()`: the key holds no inner key; such a key is represented by the
empty byte list. -/
def PubKeyEmpty (pk : List Nat) : Bool := pk.isEmpty

/-- The loop of `coin.Coins.IsValid` over `coins[1:]`: denominations strictly
increasing from `lowDenom`, no zero amount. -/
def coinsSortedNonzero : String → List Coin → Bool
  | _, [] => true
  | lowDenom, coin :: rest =>
    if coin.Denom ≤ lowDenom then false
    else if coin.Amount = 0 then false
    else coinsSortedNonzero coin.Denom rest

/-- `coin.Coins.IsValid()` of the account module: the coins are sorted by denomination
and have no zero amount. -/
def Coins.IsValid : Coins → Bool
  | [] => true
  | [coin] => decide (coin.Amount ≠ 0)
  | coin :: rest => coinsSortedNonzero coin.Denom rest

/-- `coin.Coins.IsPositive()` of the account module: there is at least one coin and
every amount is positive. -/
def Coins.IsPositive : Coins → Bool
  | [] => false
  | coins => coins.all (fun coin => decide (coin.Amount > 0))

/-- `BondUpdate`: the public key and the bonded coin of a bonding transaction; embedded
in `TxDeclareCandidacy` and `TxDelegate`. -/
structure BondUpdate where
  PubKey : List Nat
  Bond : Coin
  deriving DecidableEq

/-- `BondUpdate.ValidateBasic()`: non-empty candidate and valid coins. -/
def BondUpdate.ValidateBasic (tx : BondUpdate) : Option TxError :=
  if PubKeyEmpty tx.PubKey then some TxError.candidateEmpty
  else
    let coins : Coins := [tx.Bond]
    if !Coins.IsValid coins then some TxError.invalidCoins
    else if !Coins.IsPositive coins then some TxError.amountNotPositive
    else none

/-- `TxDeclareCandidacy`: a `BondUpdate` and a `Description`. -/
structure TxDeclareCandidacy where
  toBondUpdate : BondUpdate
  Description : Description
  deriving DecidableEq

/-- `TxDeclareCandidacy.ValidateBasic()`, promoted from the embedded `BondUpdate`. -/
def TxDeclareCandidacy.ValidateBasic (tx : TxDeclareCandidacy) : Option TxError :=
  BondUpdate.ValidateBasic tx.toBondUpdate

/-- `TxDelegate`: a `BondUpdate`. -/
structure TxDelegate where
  toBondUpdate : BondUpdate
  deriving DecidableEq

/-- `TxDelegate.ValidateBasic()`, promoted from the embedded `BondUpdate`. -/
def TxDelegate.ValidateBasic (tx : TxDelegate) : Option TxError :=
  BondUpdate.ValidateBasic tx.toBondUpdate

/-- `TxEditCandidacy`: the public key and the new description. -/
structure TxEditCandidacy where
  PubKey : List Nat
  Description : Description
  deriving DecidableEq

/-- `TxEditCandidacy.ValidateBasic()`: non-empty candidate, some description. -/
def TxEditCandidacy.ValidateBasic (tx : TxEditCandidacy) : Option TxError :=
  if PubKeyEmpty tx.PubKey then some TxError.candidateEmpty
  else
    let empty : Stake.Description := ⟨"", "", "", ""⟩
    if tx.Description = empty then some TxError.nothingToModify
    else none

/-- `TxUnbond`: the public key and the shares to unbond (a `uint64`). -/
structure TxUnbond where
  PubKey : List Nat
  Shares : Nat
  deriving DecidableEq

/-- `TxUnbond.ValidateBasic()`: non-empty candidate, positive shares. -/
def TxUnbond.ValidateBasic (tx : TxUnbond) : Option TxError :=
  if PubKeyEmpty tx.PubKey then some TxError.candidateEmpty
  else if tx.Shares = 0 then some TxError.sharesNotPositive
  else none

/-- The value of `commTok2Val` the derivation written in the comment of
`processValidatorRewards` (lines 145 to 150) arrives at,
`newTok = (totalNewCoin * totalOldTok) / (totalNewCoin - commissionCoins) - totalOldTok`,
with `coins2`, `tok1` and `commCoin` as lines 159 to 164 compute them. -/
def commTok2ValDocumented (reward totalBondTokens tok1Val commission : Decimal) : Decimal :=
  let coins2 := totalBondTokens + reward
  let tok1 := totalBondTokens
  let commCoin := reward * ((tok1 - tok1Val) / tok1) * commission
  coins2 * tok1 / (coins2 - commCoin) - tok1

/-- The validators a reward pass reaches: the maximal leading run of delegatee bonds
with nonzero voting power. -/
def leadingValidators (bonds : List DelegateeBond) : List DelegateeBond :=
  bonds.takeWhile (fun v => decide (v.VotingPower ≠ 0))

/-- A store for concrete evaluations whose single delegatee `[1]` has voting power 1000
and no bonded tokens (its self-bond holds 0), atom supply 1000. -/
def exampleStoreNoTokens : Store :=
  ⟨[], [⟨mkActor [1], mkActor [2], 1000, 0, 1 / 2, 3 / 2⟩],
    [(mkActor [1], [⟨mkActor [1], 0⟩])], 1000, []⟩

/-- `TxDefineService`: name and description of a service. -/
structure TxDefineService where
  Name : String
  Description : String
  deriving DecidableEq

/-- `TxDefineService.ValidateBasic()`. -/
def TxDefineService.ValidateBasic (tx : TxDefineService) : Option TxError :=
  if tx.Name = "" then some TxError.serviceNameEmpty
  else if tx.Description = "" then some TxError.serviceDescEmpty
  else none

/-- A candidate with its voting power blanked: everything `updateVotingPower` must
leave alone. -/
def withoutVotingPower (c : Candidate) : Candidate := { c with VotingPower := 0 }

/-- The validator set a consensus engine keeps: the power of each key, `none` for a
key that is not in the set. This is the map of the list `vs`. -/
def powerMap (vs : Validators) : List Nat → Option Int := fun key =>
  (vs.find? (fun v => decide (v.PubKey = key))).map (fun v => v.VotingPower)

/-- One entry of a change list applied to the kept set: power `0` deletes the key,
any other power sets it. -/
def applyEntry (m : List Nat → Option Int) (e : ABCIValidator) : List Nat → Option Int :=
  fun key => if key = e.PubKey then (if e.Power = 0 then none else some e.Power) else m key

/-- The entries of a change list applied one after the other. -/
def applyDiff (m : List Nat → Option Int) (diff : List ABCIValidator) :
    List Nat → Option Int :=
  diff.foldl applyEntry m

/-! ## Lemmas on byte strings -/

theorem bytesCompare_self (a : List Nat) : bytesCompare a a = 0 := by
  induction a with
  | nil => rfl
  | cons x xs ih => simp [bytesCompare, ih]

theorem bytesCompare_eq_zero : ∀ {a b : List Nat}, bytesCompare a b = 0 → a = b
  | [], [], _ => rfl
  | [], _ :: _, h => by simp [bytesCompare] at h
  | _ :: _, [], h => by simp [bytesCompare] at h
  | x :: xs, y :: ys, h => by
    simp only [bytesCompare] at h
    split_ifs at h with h1 h2
    · exact absurd h (by decide)
    · have hxy : x = y := by omega
      rw [hxy, bytesCompare_eq_zero h]

theorem bytesCompare_cases : ∀ a b : List Nat,
    bytesCompare a b = -1 ∨ bytesCompare a b = 0 ∨ bytesCompare a b = 1
  | [], [] => by simp [bytesCompare]
  | [], _ :: _ => by simp [bytesCompare]
  | _ :: _, [] => by simp [bytesCompare]
  | x :: xs, y :: ys => by
    simp only [bytesCompare]
    split_ifs
    · simp
    · simp
    · exact bytesCompare_cases xs ys

theorem bytesCompare_swap : ∀ a b : List Nat, bytesCompare a b = 1 ↔ bytesCompare b a = -1
  | [], [] => by simp [bytesCompare]
  | [], _ :: _ => by simp [bytesCompare]
  | _ :: _, [] => by simp [bytesCompare]
  | x :: xs, y :: ys => by
    simp only [bytesCompare]
    split_ifs with h1 h2 h3 <;>
      first
      | omega
      | exact bytesCompare_swap xs ys
      | simp

theorem bytesCompare_trans : ∀ {a b c : List Nat},
    bytesCompare a b = -1 → bytesCompare b c = -1 → bytesCompare a c = -1
  | [], [], _, h, _ => by simp [bytesCompare] at h
  | [], _ :: _, [], _, h => by simp [bytesCompare] at h
  | [], _ :: _, _ :: _, _, _ => by simp [bytesCompare]
  | _ :: _, [], _, h, _ => by simp [bytesCompare] at h
  | _ :: _, _ :: _, [], _, h => by simp [bytesCompare] at h
  | x :: xs, y :: ys, z :: zs, h1, h2 => by
    simp only [bytesCompare] at h1 h2 ⊢
    split_ifs at h1 h2 ⊢ with p1 p2 p3 p4 p5 p6 <;>
      first
      | rfl
      | omega
      | exact absurd h1 (by decide)
      | exact absurd h2 (by decide)
      | exact bytesCompare_trans h1 h2

theorem bytesCompare_irrefl (a : List Nat) : bytesCompare a a ≠ -1 := by
  rw [bytesCompare_self]; decide

theorem bytesCompare_asymm {a b : List Nat} (h : bytesCompare a b = -1) :
    bytesCompare b a ≠ -1 := fun h2 =>
  bytesCompare_irrefl a (bytesCompare_trans h h2)

/-- Two keys neither of which is below the other are equal. -/
theorem bytesCompare_antisymm {a b : List Nat} (h1 : bytesCompare a b ≠ -1)
    (h2 : bytesCompare b a ≠ -1) : a = b := by
  rcases bytesCompare_cases a b with h | h | h
  · exact absurd h h1
  · exact bytesCompare_eq_zero h
  · exact absurd ((bytesCompare_swap a b).1 h) h2

/-! ## Lemmas on `updateVotingPower` -/

theorem setVotingPower_power (c : Candidate) : (setVotingPower c).VotingPower = c.Shares := by
  unfold setVotingPower
  split_ifs with h
  · rfl
  · exact not_not.1 h

theorem setVotingPower_shares (c : Candidate) : (setVotingPower c).Shares = c.Shares := by
  unfold setVotingPower
  split_ifs <;> rfl

theorem setVotingPower_pubKey (c : Candidate) : (setVotingPower c).PubKey = c.PubKey := by
  unfold setVotingPower
  split_ifs <;> rfl

theorem truncatePower_length (k : Nat) : ∀ (i : Nat) (cs : Candidates),
    (truncatePower k i cs).length = cs.length
  | _, [] => rfl
  | i, _ :: cs => by simp [truncatePower, truncatePower_length k (i + 1) cs]

/-- Entry `n` of the truncated slice is entry `n` of the sorted slice, with power `0`
when its position is at or past the cap. -/
theorem truncatePower_getElem? (k : Nat) : ∀ (i : Nat) (cs : Candidates) (n : Nat),
    (truncatePower k i cs)[n]? =
      (cs[n]?).map (fun c => if i + n ≥ k then { c with VotingPower := 0 } else c)
  | _, [], _ => by simp [truncatePower]
  | i, c :: cs, 0 => by simp [truncatePower]
  | i, c :: cs, n + 1 => by
    simp only [truncatePower, List.getElem?_cons_succ]
    rw [truncatePower_getElem? k (i + 1) cs n]
    have : i + 1 + n = i + (n + 1) := by omega
    rw [this]

theorem truncatePower_of_length_le (k : Nat) : ∀ (i : Nat) (cs : Candidates),
    i + cs.length ≤ k → truncatePower k i cs = cs
  | _, [], _ => rfl
  | i, c :: cs, h => by
    simp only [List.length_cons] at h
    have hi : ¬ i ≥ k := by omega
    simp only [truncatePower, hi, if_false]
    rw [truncatePower_of_length_le k (i + 1) cs (by omega)]

theorem mem_validatorsLoop {v : Validator} : ∀ {cs : Candidates},
    v ∈ validatorsLoop cs → v ∈ cs ∧ v.VotingPower ≠ 0
  | [], h => by simp [validatorsLoop] at h
  | c :: cs, h => by
    simp only [validatorsLoop] at h
    split_ifs at h with h0
    · simp at h
    · rcases List.mem_cons.1 h with rfl | h'
      · exact ⟨List.mem_cons_self _ _, h0⟩
      · exact ⟨List.mem_cons_of_mem _ (mem_validatorsLoop h').1, (mem_validatorsLoop h').2⟩

theorem mem_Validators {v : Validator} {cs : Candidates}
    (h : v ∈ Candidates.Validators cs) : v ∈ cs ∧ v.VotingPower ≠ 0 := by
  unfold Candidates.Validators at h
  split at h
  · split_ifs at h
    · simp at h
    · exact mem_validatorsLoop h
  · exact mem_validatorsLoop h

/-- C1. Cap enforcement: whatever the sorting routine, the candidates and
`MaxVals = k`, every candidate at a position `i ≥ k` of the sequence returned by
`updateVotingPower` has voting power `0`, whatever its shares. -/
theorem updateVotingPower_cap (sort : Candidates → Candidates) (cs : Candidates)
    (params : Params) (i : Nat) (c : Candidate) (hi : params.MaxVals ≤ i)
    (hc : (Candidates.updateVotingPowerWith sort cs params)[i]? = some c) :
    c.VotingPower = 0 := by
  unfold Candidates.updateVotingPowerWith at hc
  rw [truncatePower_getElem?] at hc
  cases hs : (sort (cs.map setVotingPower))[i]? with
  | none => simp [hs] at hc
  | some d =>
    have hge : 0 + i ≥ params.MaxVals := by omega
    simp only [hs, Option.map_some', hge, if_true, Option.some.injEq] at hc
    rw [← hc]

/-- Witness of C1: three candidates with shares 100, 50, 40 and `MaxVals = 1`; the
candidate at position 1 (shares 50) has power 0. -/
theorem updateVotingPower_cap_witness :
    (Candidates.updateVotingPower
        [mkCandidate [1] 100 0, mkCandidate [3] 50 0, mkCandidate [2] 40 0] ⟨1⟩)[1]? =
      some (mkCandidate [3] 50 0) ∧ (mkCandidate [3] 50 0).VotingPower = 0 :=
  ⟨by decide, updateVotingPower_cap Candidates.Sort
      [mkCandidate [1] 100 0, mkCandidate [3] 50 0, mkCandidate [2] 40 0] ⟨1⟩ 1
      (mkCandidate [3] 50 0) (by decide) (by decide)⟩

/-- C3. After `updateVotingPower` (with any sorting routine that returns a
permutation of its input) each candidate at a position `i < MaxVals` of the returned
sequence has voting power equal to its shares and each candidate at a position
`i ≥ MaxVals` has voting power `0`; in particular every element of `Validators()` of
the result has voting power equal to its shares. -/
theorem updateVotingPower_power (sort : Candidates → Candidates)
    (hsort : ∀ l, (sort l).Perm l) (cs : Candidates) (params : Params) :
    (∀ (i : Nat) (c : Candidate),
        (Candidates.updateVotingPowerWith sort cs params)[i]? = some c →
          (i < params.MaxVals → c.VotingPower = c.Shares) ∧
          (params.MaxVals ≤ i → c.VotingPower = 0)) ∧
      ∀ v ∈ Candidates.Validators (Candidates.updateVotingPowerWith sort cs params),
        v.VotingPower = v.Shares := by
  have key : ∀ (i : Nat) (c : Candidate),
      (Candidates.updateVotingPowerWith sort cs params)[i]? = some c →
        (i < params.MaxVals → c.VotingPower = c.Shares) ∧
        (params.MaxVals ≤ i → c.VotingPower = 0) := by
    intro i c hc
    unfold Candidates.updateVotingPowerWith at hc
    rw [truncatePower_getElem?] at hc
    cases hs : (sort (cs.map setVotingPower))[i]? with
    | none => simp [hs] at hc
    | some d =>
      simp only [hs, Option.map_some', Option.some.injEq] at hc
      refine ⟨fun hlt => ?_, fun hge => ?_⟩
      · have hnge : ¬ 0 + i ≥ params.MaxVals := by omega
        rw [if_neg hnge] at hc
        have hd : d ∈ cs.map setVotingPower :=
          (hsort _).subset (List.mem_iff_getElem?.2 ⟨i, hs⟩)
        obtain ⟨e, _, rfl⟩ := List.mem_map.1 hd
        rw [← hc, setVotingPower_power, setVotingPower_shares]
      · have hge2 : 0 + i ≥ params.MaxVals := by omega
        rw [if_pos hge2] at hc
        rw [← hc]
  refine ⟨key, fun v hv => ?_⟩
  obtain ⟨hmem, hne⟩ := mem_Validators hv
  obtain ⟨i, hi⟩ := List.mem_iff_getElem?.1 hmem
  rcases Nat.lt_or_ge i params.MaxVals with hlt | hge
  · exact (key i v hi).1 hlt
  · exact absurd ((key i v hi).2 hge) hne

/-- Witness of C3: `Candidates.Sort` returns a permutation, and the statement holds for
three candidates with shares 100, 50, 40 under `MaxVals = 2`. -/
theorem updateVotingPower_power_witness :
    (∀ l, (Candidates.Sort l).Perm l) ∧
      ((∀ (i : Nat) (c : Candidate),
        (Candidates.updateVotingPowerWith Candidates.Sort
            [mkCandidate [1] 100 7, mkCandidate [3] 50 0, mkCandidate [2] 40 0] ⟨2⟩)[i]? =
          some c → (i < 2 → c.VotingPower = c.Shares) ∧ (2 ≤ i → c.VotingPower = 0)) ∧
      ∀ v ∈ Candidates.Validators (Candidates.updateVotingPowerWith Candidates.Sort
            [mkCandidate [1] 100 7, mkCandidate [3] 50 0, mkCandidate [2] 40 0] ⟨2⟩),
        v.VotingPower = v.Shares) :=
  ⟨fun l => List.perm_insertionSort _ l,
    updateVotingPower_power Candidates.Sort (fun l => List.perm_insertionSort _ l)
      [mkCandidate [1] 100 7, mkCandidate [3] 50 0, mkCandidate [2] 40 0] ⟨2⟩⟩

/-! ## Lemmas on the orders and on sorting -/

theorem bytesCompare_not_lt_trans {a b c : List Nat} (h1 : bytesCompare b a ≠ -1)
    (h2 : bytesCompare c b ≠ -1) : bytesCompare c a ≠ -1 := by
  intro h
  rcases bytesCompare_cases a b with hab | hab | hab
  · exact h2 (bytesCompare_trans h hab)
  · rw [bytesCompare_eq_zero hab] at h
    exact h2 h
  · exact h1 ((bytesCompare_swap a b).1 hab)

theorem Candidate.less_iff (a b : Candidate) :
    a.less b = true ↔ a.VotingPower > b.VotingPower ∨
      (a.VotingPower = b.VotingPower ∧ bytesCompare a.PubKey b.PubKey = -1) := by
  unfold Candidate.less
  split_ifs with h
  · simp only [decide_eq_true_eq]
    constructor
    · exact fun hgt => Or.inl hgt
    · rintro (hgt | ⟨heq, _⟩)
      · exact hgt
      · exact absurd heq h
  · have heq : a.VotingPower = b.VotingPower := not_not.1 h
    simp only [decide_eq_true_eq]
    constructor
    · exact fun hlt => Or.inr ⟨heq, hlt⟩
    · rintro (hgt | ⟨_, hlt⟩)
      · omega
      · exact hlt

theorem Candidate.notAfter_iff (a b : Candidate) :
    Candidate.notAfter a b ↔ a.VotingPower > b.VotingPower ∨
      (a.VotingPower = b.VotingPower ∧ bytesCompare b.PubKey a.PubKey ≠ -1) := by
  unfold Candidate.notAfter
  rw [← Bool.not_eq_true, Candidate.less_iff]
  constructor
  · intro h
    rcases lt_trichotomy a.VotingPower b.VotingPower with hlt | heq | hgt
    · exact absurd (Or.inl hlt) h
    · exact Or.inr ⟨heq, fun hb => h (Or.inr ⟨heq.symm, hb⟩)⟩
    · exact Or.inl hgt
  · rintro (hgt | ⟨heq, hb⟩) (hgt2 | ⟨heq2, hb2⟩)
    · omega
    · omega
    · omega
    · exact hb hb2

instance : IsTotal Candidate Candidate.notAfter where
  total a b := by
    rw [Candidate.notAfter_iff, Candidate.notAfter_iff]
    rcases lt_trichotomy a.VotingPower b.VotingPower with hlt | heq | hgt
    · exact Or.inr (Or.inl hlt)
    · by_cases hb : bytesCompare b.PubKey a.PubKey = -1
      · exact Or.inr (Or.inr ⟨heq.symm, bytesCompare_asymm hb⟩)
      · exact Or.inl (Or.inr ⟨heq, hb⟩)
    · exact Or.inl (Or.inl hgt)

instance : IsTrans Candidate Candidate.notAfter where
  trans a b c := by
    rw [Candidate.notAfter_iff, Candidate.notAfter_iff, Candidate.notAfter_iff]
    rintro (h1 | ⟨e1, k1⟩) (h2 | ⟨e2, k2⟩)
    · exact Or.inl (by omega)
    · exact Or.inl (by omega)
    · exact Or.inl (by omega)
    · exact Or.inr ⟨e1.trans e2, bytesCompare_not_lt_trans k1 k2⟩

/-- `Candidates.Sort` meets the guarantee of `sort.Sort`. -/
theorem Candidates.Sort_isSort : IsCandidateSort Candidates.Sort := fun cs =>
  ⟨List.perm_insertionSort _ cs, List.sorted_insertionSort _ cs⟩

/-- Two candidates with different keys that are in order are strictly in order. -/
theorem Candidate.less_of_notAfter {a b : Candidate} (h : Candidate.notAfter a b)
    (hne : a.PubKey ≠ b.PubKey) : a.less b = true := by
  rw [Candidate.notAfter_iff] at h
  rw [Candidate.less_iff]
  rcases h with hgt | ⟨heq, hb⟩
  · exact Or.inl hgt
  · refine Or.inr ⟨heq, ?_⟩
    rcases bytesCompare_cases a.PubKey b.PubKey with k | k | k
    · exact k
    · exact absurd (bytesCompare_eq_zero k) hne
    · exact absurd ((bytesCompare_swap _ _).1 k) hb

theorem Candidate.less_asymm {a b : Candidate} (h : a.less b = true) : b.less a = false := by
  rw [← Bool.not_eq_true]
  rw [Candidate.less_iff] at h ⊢
  rintro (hgt | ⟨heq, hb⟩)
  · rcases h with h | ⟨h, _⟩ <;> omega
  · rcases h with h | ⟨_, h⟩
    · omega
    · exact bytesCompare_asymm h hb

/-- A list sorted for a relation that is antisymmetric on its elements is the only
sorted permutation of itself. -/
theorem eq_of_perm_of_pairwise {α : Type} {r : α → α → Prop} :
    ∀ {l₁ l₂ : List α}, l₁.Perm l₂ → l₁.Pairwise r → l₂.Pairwise r →
      (∀ a ∈ l₁, ∀ b ∈ l₁, r a b → r b a → a = b) → l₁ = l₂
  | [], l₂, hp, _, _, _ => (List.Perm.nil_eq hp)
  | a :: t, [], hp, _, _, _ => absurd hp.length_eq (by simp)
  | a :: t, b :: t₂, hp, h₁, h₂, anti => by
    have hab : a = b := by
      by_contra hne
      have ha : a ∈ t₂ := by
        have := hp.subset (List.mem_cons_self a t)
        rcases List.mem_cons.1 this with h | h
        · exact absurd h hne
        · exact h
      have hb : b ∈ t := by
        have := hp.symm.subset (List.mem_cons_self b t₂)
        rcases List.mem_cons.1 this with h | h
        · exact absurd h.symm hne
        · exact h
      exact hne (anti a (List.mem_cons_self _ _) b (List.mem_cons_of_mem _ hb)
        ((List.pairwise_cons.1 h₁).1 b hb) ((List.pairwise_cons.1 h₂).1 a ha))
    subst hab
    have hp2 : t.Perm t₂ := (List.perm_cons a).1 hp
    rw [eq_of_perm_of_pairwise hp2 (List.pairwise_cons.1 h₁).2 (List.pairwise_cons.1 h₂).2
      (fun x hx y hy => anti x (List.mem_cons_of_mem _ hx) y (List.mem_cons_of_mem _ hy))]

/-- On a list with pairwise distinct keys `notAfter` is antisymmetric. -/
theorem Candidate.notAfter_antisymm {l : Candidates} (hnd : (l.map (·.PubKey)).Nodup) :
    ∀ a ∈ l, ∀ b ∈ l, Candidate.notAfter a b → Candidate.notAfter b a → a = b := by
  intro a ha b hb hab hba
  apply List.inj_on_of_nodup_map hnd ha hb
  by_contra hne
  have h1 := Candidate.less_of_notAfter hab hne
  unfold Candidate.notAfter at hba
  rw [h1] at hba
  exact absurd hba (by decide)

/-- On pairwise distinct keys every sorted permutation is the one `Candidates.Sort`
returns. -/
theorem Candidates.Sort_unique {cs l : Candidates} (hnd : (cs.map (·.PubKey)).Nodup)
    (hp : l.Perm cs) (hs : l.Pairwise Candidate.notAfter) : l = Candidates.Sort cs := by
  have hnd2 : (l.map (·.PubKey)).Nodup := ((hp.map _).nodup_iff).2 hnd
  exact eq_of_perm_of_pairwise (hp.trans (Candidates.Sort_isSort cs).1.symm) hs
    (Candidates.Sort_isSort cs).2 (Candidate.notAfter_antisymm hnd2)

/-! ## Order of the sequence returned by `updateVotingPower` -/

/-- What the truncation keeps of the entry at position `i`. -/
theorem truncatePower_getElem?_some {k i : Nat} {S : Candidates} {a : Candidate}
    (h : (truncatePower k 0 S)[i]? = some a) :
    ∃ d, S[i]? = some d ∧ a.Shares = d.Shares ∧ a.PubKey = d.PubKey ∧ (i < k → a = d) := by
  rw [truncatePower_getElem?] at h
  cases hs : S[i]? with
  | none => simp [hs] at h
  | some d =>
    simp only [hs, Option.map_some', Option.some.injEq] at h
    refine ⟨d, rfl, ?_, ?_, ?_⟩
    · rw [← h]; split_ifs <;> rfl
    · rw [← h]; split_ifs <;> rfl
    · intro hlt
      have hnge : ¬ 0 + i ≥ k := by omega
      rw [← h, if_neg hnge]

/-- The sorted slice inside `updateVotingPower`: a strictly ordered permutation whose
entries carry their shares as voting power. -/
theorem sorted_setVotingPower (sort : Candidates → Candidates) (hsort : IsCandidateSort sort)
    (cs : Candidates) (hnd : (cs.map (·.PubKey)).Nodup) :
    (sort (cs.map setVotingPower)).Pairwise (fun a b => a.less b = true) ∧
      ((sort (cs.map setVotingPower)).map (·.PubKey)).Nodup ∧
      ∀ c ∈ sort (cs.map setVotingPower), c.VotingPower = c.Shares := by
  obtain ⟨hperm, hpw⟩ := hsort (cs.map setVotingPower)
  have hkeys : (cs.map setVotingPower).map (·.PubKey) = cs.map (·.PubKey) := by
    rw [List.map_map]
    exact List.map_congr_left (fun c _ => setVotingPower_pubKey c)
  have hndS : ((sort (cs.map setVotingPower)).map (·.PubKey)).Nodup := by
    rw [(hperm.map _).nodup_iff, hkeys]
    exact hnd
  refine ⟨?_, hndS, ?_⟩
  · have hne : (sort (cs.map setVotingPower)).Pairwise (fun a b => a.PubKey ≠ b.PubKey) :=
      List.pairwise_map.1 hndS
    exact List.Pairwise.imp₂ (fun a b h1 h2 => Candidate.less_of_notAfter h1 h2) hpw hne
  · intro c hc
    obtain ⟨e, _, rfl⟩ := List.mem_map.1 (hperm.subset hc)
    rw [setVotingPower_power, setVotingPower_shares]

/-- Counterexample to C2: keys `[1]`, `[3]`, `[2]` with shares 100, 50, 40 and
`MaxVals = 1`. The returned sequence is `[1]`, `[3]`, `[2]` with powers 100, 0, 0: the
entry at position 2 is `Less` than the entry at position 1, and sorting the returned
sequence again changes it. -/
theorem updateVotingPower_not_sorted :
    ([mkCandidate [1] 100 0, mkCandidate [3] 50 0, mkCandidate [2] 40 0].map
        (·.PubKey)).Nodup ∧
      Candidates.Less (Candidates.updateVotingPower
        [mkCandidate [1] 100 0, mkCandidate [3] 50 0, mkCandidate [2] 40 0] ⟨1⟩) 2 1 = true ∧
      Candidates.Sort (Candidates.updateVotingPower
        [mkCandidate [1] 100 0, mkCandidate [3] 50 0, mkCandidate [2] 40 0] ⟨1⟩) ≠
        Candidates.updateVotingPower
          [mkCandidate [1] 100 0, mkCandidate [3] 50 0, mkCandidate [2] 40 0] ⟨1⟩ := by
  decide

/-- C2 (amended). For candidates with pairwise distinct public keys and any sorting
routine with the guarantee of `sort.Sort`, the sequence returned by `updateVotingPower`
is in descending order of shares with ties broken by strictly increasing public-key
bytes; on the positions below `MaxVals` it is sorted by `Less` (for adjacent `i`, `i+1`
below the cap `Less(i+1, i)` is false and `Less(i, i+1)` is true); and when the number
of candidates is at most `MaxVals`, sorting the returned sequence leaves it
unchanged. -/
theorem updateVotingPower_order (sort : Candidates → Candidates)
    (hsort : IsCandidateSort sort) (cs : Candidates) (params : Params)
    (hnd : (cs.map (·.PubKey)).Nodup) :
    (∀ (i : Nat) (a b : Candidate),
        (Candidates.updateVotingPowerWith sort cs params)[i]? = some a →
        (Candidates.updateVotingPowerWith sort cs params)[i + 1]? = some b →
          a.Shares > b.Shares ∨
            (a.Shares = b.Shares ∧ bytesCompare a.PubKey b.PubKey = -1)) ∧
      (∀ i : Nat, i + 1 < params.MaxVals →
        Candidates.Less (Candidates.updateVotingPowerWith sort cs params) (i + 1) i = false ∧
        (i + 1 < (Candidates.updateVotingPowerWith sort cs params).length →
          Candidates.Less (Candidates.updateVotingPowerWith sort cs params) i (i + 1) =
            true)) ∧
      (cs.length ≤ params.MaxVals →
        sort (Candidates.updateVotingPowerWith sort cs params) =
          Candidates.updateVotingPowerWith sort cs params) := by
  obtain ⟨hstrict, hndS, hvp⟩ := sorted_setVotingPower sort hsort cs hnd
  have hget : ∀ (i : Nat) (d e : Candidate), (sort (cs.map setVotingPower))[i]? = some d →
      (sort (cs.map setVotingPower))[i + 1]? = some e → d.less e = true := by
    intro i d e hd he
    obtain ⟨h1, rfl⟩ := List.getElem?_eq_some.1 hd
    obtain ⟨h2, rfl⟩ := List.getElem?_eq_some.1 he
    exact List.pairwise_iff_getElem.1 hstrict i (i + 1) h1 h2 (Nat.lt_succ_self i)
  refine ⟨?_, ?_, ?_⟩
  · intro i a b ha hb
    unfold Candidates.updateVotingPowerWith at ha hb
    obtain ⟨d, hd, hsa, hka, _⟩ := truncatePower_getElem?_some ha
    obtain ⟨e, he, hsb, hkb, _⟩ := truncatePower_getElem?_some hb
    have hlt := (Candidate.less_iff d e).1 (hget i d e hd he)
    have hd' := hvp d (List.mem_iff_getElem?.2 ⟨i, hd⟩)
    have he' := hvp e (List.mem_iff_getElem?.2 ⟨i + 1, he⟩)
    rw [hsa, hsb, hka, hkb, ← hd', ← he']
    exact hlt
  · intro i hi
    unfold Candidates.updateVotingPowerWith Candidates.Less
    cases ha : (truncatePower params.MaxVals 0 (sort (cs.map setVotingPower)))[i]? with
    | none =>
      refine ⟨by split <;> simp_all, fun hlen => ?_⟩
      rw [List.getElem?_eq_none_iff] at ha
      omega
    | some a =>
      cases hb : (truncatePower params.MaxVals 0 (sort (cs.map setVotingPower)))[i + 1]? with
      | none =>
        refine ⟨rfl, fun hlen => ?_⟩
        rw [List.getElem?_eq_none_iff] at hb
        omega
      | some b =>
        obtain ⟨d, hd, _, _, hda⟩ := truncatePower_getElem?_some ha
        obtain ⟨e, he, _, _, heb⟩ := truncatePower_getElem?_some hb
        have hlt := hget i d e hd he
        rw [← hda (by omega), ← heb hi] at hlt
        exact ⟨Candidate.less_asymm hlt, fun _ => hlt⟩
  · intro hlen
    have hlenS : (sort (cs.map setVotingPower)).length = cs.length := by
      rw [(hsort _).1.length_eq, List.length_map]
    have hout : Candidates.updateVotingPowerWith sort cs params =
        sort (cs.map setVotingPower) := by
      unfold Candidates.updateVotingPowerWith
      exact truncatePower_of_length_le _ _ _ (by omega)
    rw [hout]
    exact eq_of_perm_of_pairwise (hsort _).1 (hsort _).2 (hsort _).2
      (Candidate.notAfter_antisymm (((hsort _).1.map _).nodup_iff.2 hndS))

/-- Witness of C2 (amended): `Candidates.Sort` on keys `[1]`, `[3]`, `[2]` with shares
100, 50, 40 and `MaxVals = 1`. -/
theorem updateVotingPower_order_witness :
    IsCandidateSort Candidates.Sort ∧
      ([mkCandidate [1] 100 0, mkCandidate [3] 50 0, mkCandidate [2] 40 0].map
        (·.PubKey)).Nodup ∧
      ∀ (i : Nat) (a b : Candidate),
        (Candidates.updateVotingPowerWith Candidates.Sort
          [mkCandidate [1] 100 0, mkCandidate [3] 50 0, mkCandidate [2] 40 0] ⟨1⟩)[i]? =
            some a →
        (Candidates.updateVotingPowerWith Candidates.Sort
          [mkCandidate [1] 100 0, mkCandidate [3] 50 0, mkCandidate [2] 40 0] ⟨1⟩)[i + 1]? =
            some b →
          a.Shares > b.Shares ∨
            (a.Shares = b.Shares ∧ bytesCompare a.PubKey b.PubKey = -1) :=
  ⟨Candidates.Sort_isSort, by decide,
    (updateVotingPower_order Candidates.Sort Candidates.Sort_isSort
      [mkCandidate [1] 100 0, mkCandidate [3] 50 0, mkCandidate [2] 40 0] ⟨1⟩
      (by decide)).1⟩

/-! ## The change list -/

theorem changedLoop_nil (vs2 : Validators) :
    changedLoop [] vs2 = vs2.map Validator.ABCIValidator := rfl

theorem changedLoop_cons_nil (v : Validator) (vs : Validators) :
    changedLoop (v :: vs) [] = (v :: vs).map removedEntry := rfl

/-- The body of the main loop of `validatorsChanged` at positions `i`, `j` with
`vs[i] = v` and `vs2[j] = w`. -/
theorem changedLoop_cons_cons (v w : Validator) (vs ws : Validators) :
    changedLoop (v :: vs) (w :: ws) =
      if v.PubKey ≠ w.PubKey then
        if bytesCompare v.PubKey w.PubKey = 1 then
          Validator.ABCIValidator w :: changedLoop (v :: vs) ws
        else removedEntry v :: changedLoop vs (w :: ws)
      else if v.VotingPower ≠ w.VotingPower then
        Validator.ABCIValidator w :: changedLoop vs ws
      else changedLoop vs ws := by
  simp only [changedLoop, changedStep]

theorem Validator.keyLt_ne {a b : Validator} (h : Validator.keyLt a b) :
    a.PubKey ≠ b.PubKey := by
  intro heq
  unfold Validator.keyLt at h
  rw [heq] at h
  exact bytesCompare_irrefl _ h

theorem Validator.keyLt_trans {a b c : Validator} (h1 : Validator.keyLt a b)
    (h2 : Validator.keyLt b c) : Validator.keyLt a c :=
  bytesCompare_trans h1 h2

/-- On key-sorted sets the loops of `validatorsChanged` emit exactly the changed
entries. -/
theorem mem_changedLoop (e : ABCIValidator) : ∀ (l₁ l₂ : Validators),
    l₁.Pairwise Validator.keyLt → l₂.Pairwise Validator.keyLt →
      (e ∈ changedLoop l₁ l₂ ↔ ChangedEntry l₁ l₂ e)
  | [], l₂, _, _ => by
    simp only [changedLoop_nil, ChangedEntry, List.mem_map, List.not_mem_nil, false_and,
      exists_false, or_false, IsEmpty.forall_iff, implies_true, and_true]
    constructor
    · rintro ⟨w, hw, rfl⟩
      exact ⟨w, hw, rfl⟩
    · rintro ⟨w, hw, rfl⟩
      exact ⟨w, hw, rfl⟩
  | v :: vs, [], _, _ => by
    rw [changedLoop_cons_nil, List.mem_map]
    unfold ChangedEntry
    constructor
    · rintro ⟨x, hx, rfl⟩
      exact Or.inr (Or.inl ⟨x, hx, rfl, fun y hy => absurd hy (List.not_mem_nil y)⟩)
    · rintro (⟨y, hy, _⟩ | ⟨x, hx, rfl, _⟩ | ⟨_, _, y, hy, _⟩)
      · exact absurd hy (List.not_mem_nil y)
      · exact ⟨x, hx, rfl⟩
      · exact absurd hy (List.not_mem_nil y)
  | v :: vs, w :: ws, h₁, h₂ => by
    have hv := (List.pairwise_cons.1 h₁).1
    have hw := (List.pairwise_cons.1 h₂).1
    have hvs := (List.pairwise_cons.1 h₁).2
    have hws := (List.pairwise_cons.1 h₂).2
    rw [changedLoop_cons_cons]
    split_ifs with hne hgt hvp
    · -- the new set holds a key below `v`
      have hwv : Validator.keyLt w v := (bytesCompare_swap _ _).1 hgt
      have fact : ∀ x ∈ v :: vs, x.PubKey ≠ w.PubKey := by
        intro x hx
        rcases List.mem_cons.1 hx with rfl | hx
        · exact hne
        · exact (Validator.keyLt_ne (Validator.keyLt_trans hwv (hv x hx))).symm
      rw [List.mem_cons, mem_changedLoop e (v :: vs) ws h₁ hws]
      unfold ChangedEntry
      constructor
      · rintro (rfl | ⟨y, hy, rfl, hall⟩ | ⟨x, hx, rfl, hall⟩ | ⟨x, hx, y, hy, hk, hp, rfl⟩)
        · exact Or.inl ⟨w, List.mem_cons_self _ _, rfl, fact⟩
        · exact Or.inl ⟨y, List.mem_cons_of_mem _ hy, rfl, hall⟩
        · refine Or.inr (Or.inl ⟨x, hx, rfl, fun y hy => ?_⟩)
          rcases List.mem_cons.1 hy with rfl | hy
          · exact fact x hx
          · exact hall y hy
        · exact Or.inr (Or.inr ⟨x, hx, y, List.mem_cons_of_mem _ hy, hk, hp, rfl⟩)
      · rintro (⟨y, hy, rfl, hall⟩ | ⟨x, hx, rfl, hall⟩ | ⟨x, hx, y, hy, hk, hp, rfl⟩)
        · rcases List.mem_cons.1 hy with rfl | hy
          · exact Or.inl rfl
          · exact Or.inr (Or.inl ⟨y, hy, rfl, hall⟩)
        · exact Or.inr (Or.inr (Or.inl
            ⟨x, hx, rfl, fun y hy => hall y (List.mem_cons_of_mem _ hy)⟩))
        · rcases List.mem_cons.1 hy with rfl | hy
          · exact absurd hk (fact x hx)
          · exact Or.inr (Or.inr (Or.inr ⟨x, hx, y, hy, hk, hp, rfl⟩))
    · -- the old validator `v` has been removed
      have hvw : Validator.keyLt v w := by
        rcases bytesCompare_cases v.PubKey w.PubKey with k | k | k
        · exact k
        · exact absurd (bytesCompare_eq_zero k) hne
        · exact absurd k hgt
      have fact : ∀ y ∈ w :: ws, v.PubKey ≠ y.PubKey := by
        intro y hy
        rcases List.mem_cons.1 hy with rfl | hy
        · exact hne
        · exact Validator.keyLt_ne (Validator.keyLt_trans hvw (hw y hy))
      rw [List.mem_cons, mem_changedLoop e vs (w :: ws) hvs h₂]
      unfold ChangedEntry
      constructor
      · rintro (rfl | ⟨y, hy, rfl, hall⟩ | ⟨x, hx, rfl, hall⟩ | ⟨x, hx, y, hy, hk, hp, rfl⟩)
        · exact Or.inr (Or.inl ⟨v, List.mem_cons_self _ _, rfl, fact⟩)
        · refine Or.inl ⟨y, hy, rfl, fun x hx => ?_⟩
          rcases List.mem_cons.1 hx with rfl | hx
          · exact fact y hy
          · exact hall x hx
        · exact Or.inr (Or.inl ⟨x, List.mem_cons_of_mem _ hx, rfl, hall⟩)
        · exact Or.inr (Or.inr ⟨x, List.mem_cons_of_mem _ hx, y, hy, hk, hp, rfl⟩)
      · rintro (⟨y, hy, rfl, hall⟩ | ⟨x, hx, rfl, hall⟩ | ⟨x, hx, y, hy, hk, hp, rfl⟩)
        · exact Or.inr (Or.inl ⟨y, hy, rfl, fun x hx => hall x (List.mem_cons_of_mem _ hx)⟩)
        · rcases List.mem_cons.1 hx with rfl | hx
          · exact Or.inl rfl
          · exact Or.inr (Or.inr (Or.inl ⟨x, hx, rfl, hall⟩))
        · rcases List.mem_cons.1 hx with rfl | hx
          · exact absurd hk (fact y hy)
          · exact Or.inr (Or.inr (Or.inr ⟨x, hx, y, hy, hk, hp, rfl⟩))
    · -- same key, the power changed
      have hk0 : v.PubKey = w.PubKey := not_not.1 hne
      have factv : ∀ y ∈ ws, v.PubKey ≠ y.PubKey := fun y hy => by
        rw [hk0]; exact Validator.keyLt_ne (hw y hy)
      have factw : ∀ x ∈ vs, x.PubKey ≠ w.PubKey := fun x hx => by
        rw [← hk0]; exact (Validator.keyLt_ne (hv x hx)).symm
      rw [List.mem_cons, mem_changedLoop e vs ws hvs hws]
      unfold ChangedEntry
      constructor
      · rintro (rfl | ⟨y, hy, rfl, hall⟩ | ⟨x, hx, rfl, hall⟩ | ⟨x, hx, y, hy, hk, hp, rfl⟩)
        · exact Or.inr (Or.inr
            ⟨v, List.mem_cons_self _ _, w, List.mem_cons_self _ _, hk0, hvp, rfl⟩)
        · refine Or.inl ⟨y, List.mem_cons_of_mem _ hy, rfl, fun x hx => ?_⟩
          rcases List.mem_cons.1 hx with rfl | hx
          · exact factv y hy
          · exact hall x hx
        · refine Or.inr (Or.inl ⟨x, List.mem_cons_of_mem _ hx, rfl, fun y hy => ?_⟩)
          rcases List.mem_cons.1 hy with rfl | hy
          · exact factw x hx
          · exact hall y hy
        · exact Or.inr (Or.inr
            ⟨x, List.mem_cons_of_mem _ hx, y, List.mem_cons_of_mem _ hy, hk, hp, rfl⟩)
      · rintro (⟨y, hy, rfl, hall⟩ | ⟨x, hx, rfl, hall⟩ | ⟨x, hx, y, hy, hk, hp, rfl⟩)
        · rcases List.mem_cons.1 hy with rfl | hy
          · exact absurd hk0 (hall v (List.mem_cons_self _ _))
          · exact Or.inr (Or.inl
              ⟨y, hy, rfl, fun x hx => hall x (List.mem_cons_of_mem _ hx)⟩)
        · rcases List.mem_cons.1 hx with rfl | hx
          · exact absurd hk0 (hall w (List.mem_cons_self _ _))
          · exact Or.inr (Or.inr (Or.inl
              ⟨x, hx, rfl, fun y hy => hall y (List.mem_cons_of_mem _ hy)⟩))
        · rcases List.mem_cons.1 hx with rfl | hx
          · rcases List.mem_cons.1 hy with rfl | hy
            · exact Or.inl rfl
            · exact absurd hk (factv y hy)
          · rcases List.mem_cons.1 hy with rfl | hy
            · exact absurd hk (factw x hx)
            · exact Or.inr (Or.inr (Or.inr ⟨x, hx, y, hy, hk, hp, rfl⟩))
    · -- same key, same power: nothing is emitted
      have hk0 : v.PubKey = w.PubKey := not_not.1 hne
      have hp0 : v.VotingPower = w.VotingPower := not_not.1 hvp
      have factv : ∀ y ∈ ws, v.PubKey ≠ y.PubKey := fun y hy => by
        rw [hk0]; exact Validator.keyLt_ne (hw y hy)
      have factw : ∀ x ∈ vs, x.PubKey ≠ w.PubKey := fun x hx => by
        rw [← hk0]; exact (Validator.keyLt_ne (hv x hx)).symm
      rw [mem_changedLoop e vs ws hvs hws]
      unfold ChangedEntry
      constructor
      · rintro (⟨y, hy, rfl, hall⟩ | ⟨x, hx, rfl, hall⟩ | ⟨x, hx, y, hy, hk, hp, rfl⟩)
        · refine Or.inl ⟨y, List.mem_cons_of_mem _ hy, rfl, fun x hx => ?_⟩
          rcases List.mem_cons.1 hx with rfl | hx
          · exact factv y hy
          · exact hall x hx
        · refine Or.inr (Or.inl ⟨x, List.mem_cons_of_mem _ hx, rfl, fun y hy => ?_⟩)
          rcases List.mem_cons.1 hy with rfl | hy
          · exact factw x hx
          · exact hall y hy
        · exact Or.inr (Or.inr
            ⟨x, List.mem_cons_of_mem _ hx, y, List.mem_cons_of_mem _ hy, hk, hp, rfl⟩)
      · rintro (⟨y, hy, rfl, hall⟩ | ⟨x, hx, rfl, hall⟩ | ⟨x, hx, y, hy, hk, hp, rfl⟩)
        · rcases List.mem_cons.1 hy with rfl | hy
          · exact absurd hk0 (hall v (List.mem_cons_self _ _))
          · exact Or.inl ⟨y, hy, rfl, fun x hx => hall x (List.mem_cons_of_mem _ hx)⟩
        · rcases List.mem_cons.1 hx with rfl | hx
          · exact absurd hk0 (hall w (List.mem_cons_self _ _))
          · exact Or.inr (Or.inl
              ⟨x, hx, rfl, fun y hy => hall y (List.mem_cons_of_mem _ hy)⟩)
        · rcases List.mem_cons.1 hx with rfl | hx
          · rcases List.mem_cons.1 hy with rfl | hy
            · exact absurd hp0 hp
            · exact absurd hk (factv y hy)
          · rcases List.mem_cons.1 hy with rfl | hy
            · exact absurd hk (factw x hx)
            · exact Or.inr (Or.inr ⟨x, hx, y, hy, hk, hp, rfl⟩)
termination_by l₁ l₂ => l₁.length + l₂.length

theorem Validator.keyNotAfter_iff (a b : Validator) :
    Validator.notAfter a b ↔ bytesCompare b.PubKey a.PubKey ≠ -1 := by
  unfold Validator.notAfter Validator.less
  simp

instance : IsTotal Validator Validator.notAfter where
  total a b := by
    rw [Validator.keyNotAfter_iff, Validator.keyNotAfter_iff]
    by_cases hb : bytesCompare b.PubKey a.PubKey = -1
    · exact Or.inr (bytesCompare_asymm hb)
    · exact Or.inl hb

instance : IsTrans Validator Validator.notAfter where
  trans a b c := by
    rw [Validator.keyNotAfter_iff, Validator.keyNotAfter_iff, Validator.keyNotAfter_iff]
    exact fun k1 k2 => bytesCompare_not_lt_trans k1 k2

theorem Validators.Sort_perm (vs : Validators) : (Validators.Sort vs).Perm vs :=
  List.perm_insertionSort _ vs

/-- On pairwise distinct keys `Validators.Sort` returns strictly increasing keys. -/
theorem Validators.Sort_keyLt (vs : Validators) (hnd : (vs.map (·.PubKey)).Nodup) :
    (Validators.Sort vs).Pairwise Validator.keyLt := by
  have hs : (Validators.Sort vs).Pairwise Validator.notAfter :=
    List.sorted_insertionSort _ vs
  have hndS : ((Validators.Sort vs).map (·.PubKey)).Nodup :=
    (((Validators.Sort_perm vs).map _).nodup_iff).2 hnd
  have hne : (Validators.Sort vs).Pairwise (fun a b => a.PubKey ≠ b.PubKey) :=
    List.pairwise_map.1 hndS
  refine List.Pairwise.imp₂ (fun a b h1 h2 => ?_) hs hne
  rw [Validator.keyNotAfter_iff] at h1
  rcases bytesCompare_cases a.PubKey b.PubKey with k | k | k
  · exact k
  · exact absurd (bytesCompare_eq_zero k) h2
  · exact absurd ((bytesCompare_swap _ _).1 k) h1

theorem ChangedEntry_congr {old old2 new new2 : Validators} (e : ABCIValidator)
    (h₁ : ∀ x, x ∈ old2 ↔ x ∈ old) (h₂ : ∀ x, x ∈ new2 ↔ x ∈ new) :
    ChangedEntry old2 new2 e ↔ ChangedEntry old new e := by
  unfold ChangedEntry
  simp only [h₁, h₂]

/-- On sets with pairwise distinct keys `validatorsChanged` emits exactly the changed
entries. -/
theorem mem_validatorsChanged (old new : Validators)
    (hold : (old.map (·.PubKey)).Nodup) (hnew : (new.map (·.PubKey)).Nodup)
    (e : ABCIValidator) :
    e ∈ Validators.validatorsChanged old new ↔ ChangedEntry old new e := by
  unfold Validators.validatorsChanged
  rw [mem_changedLoop e _ _ (Validators.Sort_keyLt old hold) (Validators.Sort_keyLt new hnew)]
  exact ChangedEntry_congr e (fun x => (Validators.Sort_perm old).mem_iff)
    (fun x => (Validators.Sort_perm new).mem_iff)

/-- C4. Diff minimality: for validator lists `old` and `new`, each with pairwise
distinct public keys, `old.validatorsChanged(new)` contains no entry whose public key
occurs in both `old` and `new` with the same voting power. -/
theorem validatorsChanged_minimal (old new : Validators)
    (hold : (old.map (·.PubKey)).Nodup) (hnew : (new.map (·.PubKey)).Nodup) :
    ∀ e ∈ Validators.validatorsChanged old new,
      ¬ ∃ v ∈ old, ∃ w ∈ new,
        v.PubKey = e.PubKey ∧ w.PubKey = e.PubKey ∧ v.VotingPower = w.VotingPower := by
  intro e he
  rw [mem_validatorsChanged old new hold hnew] at he
  rintro ⟨v, hv, w, hw, hkv, hkw, hp⟩
  rcases he with ⟨y, _, rfl, hall⟩ | ⟨x, _, rfl, hall⟩ | ⟨x, hx, y, hy, hk, hne, rfl⟩
  · exact hall v hv hkv
  · exact hall w hw hkw.symm
  · have hvx : v = x := List.inj_on_of_nodup_map hold hv hx (hkv.trans hk.symm)
    have hwy : w = y := List.inj_on_of_nodup_map hnew hw hy hkw
    rw [hvx, hwy] at hp
    exact hne hp

/-- Witness of C4: old keys `[1]`, `[2]` with powers 10, 20 against new keys `[2]`,
`[3]` with powers 20, 30. -/
theorem validatorsChanged_minimal_witness :
    ([mkCandidate [1] 10 10, mkCandidate [2] 20 20].map (·.PubKey)).Nodup ∧
      ([mkCandidate [3] 30 30, mkCandidate [2] 20 20].map (·.PubKey)).Nodup ∧
      ∀ e ∈ Validators.validatorsChanged [mkCandidate [1] 10 10, mkCandidate [2] 20 20]
          [mkCandidate [3] 30 30, mkCandidate [2] 20 20],
        ¬ ∃ v ∈ [mkCandidate [1] 10 10, mkCandidate [2] 20 20],
            ∃ w ∈ [mkCandidate [3] 30 30, mkCandidate [2] 20 20],
          v.PubKey = e.PubKey ∧ w.PubKey = e.PubKey ∧ v.VotingPower = w.VotingPower :=
  ⟨by decide, by decide,
    validatorsChanged_minimal [mkCandidate [1] 10 10, mkCandidate [2] 20 20]
      [mkCandidate [3] 30 30, mkCandidate [2] 20 20] (by decide) (by decide)⟩

/-- C5. Diff completeness: for validator lists `old` and `new`, each with pairwise
distinct public keys, every key present in `new` but absent from `old` appears in
`old.validatorsChanged(new)` with the voting power `new` gives it, and every key
present in `old` but absent from `new` appears in it with power `0`. -/
theorem validatorsChanged_complete (old new : Validators)
    (hold : (old.map (·.PubKey)).Nodup) (hnew : (new.map (·.PubKey)).Nodup) :
    (∀ w ∈ new, (∀ v ∈ old, v.PubKey ≠ w.PubKey) →
        ({ PubKey := w.PubKey, Power := w.VotingPower } : ABCIValidator) ∈
          Validators.validatorsChanged old new) ∧
      (∀ v ∈ old, (∀ w ∈ new, w.PubKey ≠ v.PubKey) →
        ({ PubKey := v.PubKey, Power := 0 } : ABCIValidator) ∈
          Validators.validatorsChanged old new) := by
  constructor
  · intro w hw hall
    rw [mem_validatorsChanged old new hold hnew]
    exact Or.inl ⟨w, hw, rfl, hall⟩
  · intro v hv hall
    rw [mem_validatorsChanged old new hold hnew]
    exact Or.inr (Or.inl ⟨v, hv, rfl, fun w hw => (hall w hw).symm⟩)

/-- Witness of C5: old keys `[1]`, `[2]` against new keys `[3]`, `[2]`; key `[3]` enters
with power 30 and key `[1]` leaves with power 0. -/
theorem validatorsChanged_complete_witness :
    ([mkCandidate [1] 10 10, mkCandidate [2] 20 20].map (·.PubKey)).Nodup ∧
      ([mkCandidate [3] 30 30, mkCandidate [2] 20 20].map (·.PubKey)).Nodup ∧
      (⟨[3], 30⟩ : ABCIValidator) ∈
        Validators.validatorsChanged [mkCandidate [1] 10 10, mkCandidate [2] 20 20]
          [mkCandidate [3] 30 30, mkCandidate [2] 20 20] ∧
      (⟨[1], 0⟩ : ABCIValidator) ∈
        Validators.validatorsChanged [mkCandidate [1] 10 10, mkCandidate [2] 20 20]
          [mkCandidate [3] 30 30, mkCandidate [2] 20 20] :=
  ⟨by decide, by decide,
    (validatorsChanged_complete [mkCandidate [1] 10 10, mkCandidate [2] 20 20]
      [mkCandidate [3] 30 30, mkCandidate [2] 20 20] (by decide) (by decide)).1
      (mkCandidate [3] 30 30) (by decide) (by decide),
    (validatorsChanged_complete [mkCandidate [1] 10 10, mkCandidate [2] 20 20]
      [mkCandidate [3] 30 30, mkCandidate [2] 20 20] (by decide) (by decide)).2
      (mkCandidate [1] 10 10) (by decide) (by decide)⟩

/-! ## `Validators()` -/

/-- The single-candidate test at the head of `Validators()` returns what the loop
returns. -/
theorem Validators_eq_loop (cs : Candidates) :
    Candidates.Validators cs = validatorsLoop cs := by
  unfold Candidates.Validators
  split
  · split_ifs with h
    · simp [validatorsLoop, h]
    · rfl
  · rfl

theorem validatorsLoop_leading : ∀ cs : Candidates,
    validatorsLoop cs <+: cs.map Candidate.validator
  | [] => by simp [validatorsLoop]
  | c :: cs => by
    simp only [validatorsLoop, List.map_cons]
    split_ifs
    · exact List.nil_prefix
    · exact (List.prefix_cons_inj c).2 (validatorsLoop_leading cs)

/-- Counterexample to C6: a single candidate with voting power `-1` is returned by
`Validators()`, and its voting power is not positive. -/
theorem Validators_not_positive :
    Candidates.Validators [mkCandidate [1] 5 (-1)] = [mkCandidate [1] 5 (-1)] ∧
      ¬ (mkCandidate [1] 5 (-1)).VotingPower > 0 := by
  decide

/-- C6 (amended). For every list of candidates `cs`, `cs.Validators()` is a prefix of
`cs` (same elements, same order, converted to `Validator`) and every element of the
result has voting power different from `0`; it is positive whenever no candidate of
`cs` has a negative voting power. -/
theorem Validators_leading (cs : Candidates) :
    Candidates.Validators cs <+: cs.map Candidate.validator ∧
      (∀ v ∈ Candidates.Validators cs, v.VotingPower ≠ 0) ∧
      ((∀ c ∈ cs, 0 ≤ c.VotingPower) →
        ∀ v ∈ Candidates.Validators cs, v.VotingPower > 0) := by
  refine ⟨?_, fun v hv => (mem_Validators hv).2, fun hnn v hv => ?_⟩
  · rw [Validators_eq_loop]
    exact validatorsLoop_leading cs
  · obtain ⟨hmem, hne⟩ := mem_Validators hv
    have := hnn v hmem
    omega

/-- Witness of C6 (amended): powers 7, 3, 0, 4; the validators are the first two. -/
theorem Validators_leading_witness :
    (∀ c ∈ [mkCandidate [1] 7 7, mkCandidate [2] 3 3, mkCandidate [3] 0 0,
        mkCandidate [4] 4 4], 0 ≤ c.VotingPower) ∧
      Candidates.Validators [mkCandidate [1] 7 7, mkCandidate [2] 3 3, mkCandidate [3] 0 0,
        mkCandidate [4] 4 4] = [mkCandidate [1] 7 7, mkCandidate [2] 3 3] ∧
      ∀ v ∈ Candidates.Validators [mkCandidate [1] 7 7, mkCandidate [2] 3 3,
        mkCandidate [3] 0 0, mkCandidate [4] 4 4], v.VotingPower > 0 :=
  ⟨by decide, by decide,
    (Validators_leading [mkCandidate [1] 7 7, mkCandidate [2] 3 3, mkCandidate [3] 0 0,
      mkCandidate [4] 4 4]).2.2 (by decide)⟩

/-! ## `UpdateValidatorSet` -/

/-- C7 (code bug). Two load orders of the same two candidates under `MaxVals = 1`:
key `[1]` with shares 100 and power 100, key `[2]` with shares 50 and power 0 (as the
previous tick stored them). Loaded as `[1]`, `[2]` the diff is empty; loaded as `[2]`,
`[1]` the snapshot before the update stops at the zero power of `[2]`, misses `[1]`,
and the diff reports `[1]` with its unchanged power 100. The diff between the
candidates with nonzero power before and after the update is empty. -/
theorem UpdateValidatorSet_order_dependent :
    UpdateValidatorSet [mkCandidate [1] 100 100, mkCandidate [2] 50 0] ⟨1⟩ = [] ∧
      UpdateValidatorSet [mkCandidate [2] 50 0, mkCandidate [1] 100 100] ⟨1⟩ =
        [⟨[1], 100⟩] ∧
      Validators.validatorsChanged
        ([mkCandidate [2] 50 0, mkCandidate [1] 100 100].filter
          (fun c => decide (c.VotingPower ≠ 0)))
        ((Candidates.updateVotingPower
          [mkCandidate [2] 50 0, mkCandidate [1] 100 100] ⟨1⟩).filter
            (fun c => decide (c.VotingPower ≠ 0))) = [] := by
  decide

/-! ## The two-candidate scenario -/

theorem setVotingPower_eq (c : Candidate) :
    setVotingPower c = { c with VotingPower := c.Shares } := by
  unfold setVotingPower
  split_ifs with h
  · rfl
  · cases c
    simp_all

/-- `updateVotingPower` on two candidates with distinct keys under `MaxVals = 1`: the
one with more shares comes first and keeps its shares as power, the other gets `0`. -/
theorem updateVotingPower_pair (X Y : Candidate) (params : Params)
    (hp : params.MaxVals = 1) (hgt : X.Shares > Y.Shares) (hne : X.PubKey ≠ Y.PubKey)
    (cs : Candidates) (hcs : cs = [X, Y] ∨ cs = [Y, X]) :
    Candidates.updateVotingPower cs params =
      [{ X with VotingPower := X.Shares }, { Y with VotingPower := 0 }] := by
  have hsorted : Candidates.Sort (cs.map setVotingPower) =
      [{ X with VotingPower := X.Shares }, { Y with VotingPower := Y.Shares }] := by
    symm
    apply Candidates.Sort_unique
    · rcases hcs with rfl | rfl
      · simpa [setVotingPower_pubKey] using hne
      · simpa [setVotingPower_pubKey] using hne.symm
    · rcases hcs with rfl | rfl
      · simp [setVotingPower_eq]
      · simp only [List.map_cons, List.map_nil, setVotingPower_eq]
        exact List.Perm.swap _ _ _
    · simp only [List.pairwise_cons, List.mem_singleton, forall_eq, List.not_mem_nil,
        IsEmpty.forall_iff, implies_true, List.Pairwise.nil, and_true]
      rw [Candidate.notAfter_iff]
      exact Or.inl hgt
  unfold Candidates.updateVotingPower Candidates.updateVotingPowerWith
  rw [hsorted, hp]
  simp [truncatePower]

/-- Counterexample to C8: with keys `[1]` for A and `[2]` for B the scenario ends with
the diff `[{A, 0}, {B, 200}]`, not `[{B, 200}, {A, 0}]`. -/
theorem scenario_diff_key_order :
    Validators.validatorsChanged
        (Candidates.Validators (Candidates.updateVotingPower
          [mkCandidate [1] 100 0, mkCandidate [2] 50 0] ⟨1⟩))
        (Candidates.Validators (Candidates.updateVotingPower
          (setShares [2] 200 (Candidates.updateVotingPower
            [mkCandidate [1] 100 0, mkCandidate [2] 50 0] ⟨1⟩)) ⟨1⟩)) =
      [⟨[1], 0⟩, ⟨[2], 200⟩] ∧
    ([⟨[1], 0⟩, ⟨[2], 200⟩] : List ABCIValidator) ≠ [⟨[2], 200⟩, ⟨[1], 0⟩] := by
  decide

/-- C8 (amended). Two candidates A (shares 100) and B (shares 50) with distinct public
keys, in either order, and `MaxVals = 1`: after `updateVotingPower` A has voting power
100, B has voting power 0 and `Validators()` returns exactly `[A]`; after B's shares
are set to 200 and the update is run again, `validatorsChanged` of the prior validator
set against the new one holds the two entries `{B, 200}` and `{A, 0}` in increasing
order of public-key bytes: `[{B, 200}, {A, 0}]` when B's key is below A's,
`[{A, 0}, {B, 200}]` otherwise; `UpdateValidatorSet` on the candidates in the order the
first update left them returns the same list. -/
theorem scenario_two_candidates (A B : Candidate) (params : Params)
    (hA : A.Shares = 100) (hB : B.Shares = 50) (hne : A.PubKey ≠ B.PubKey)
    (hp : params.MaxVals = 1) (cs : Candidates) (hcs : cs = [A, B] ∨ cs = [B, A]) :
    Candidates.updateVotingPower cs params =
        [{ A with VotingPower := 100 }, { B with VotingPower := 0 }] ∧
      Candidates.Validators (Candidates.updateVotingPower cs params) =
        [{ A with VotingPower := 100 }] ∧
      Candidates.Validators (Candidates.updateVotingPower
          (setShares B.PubKey 200 (Candidates.updateVotingPower cs params)) params) =
        [{ B with Shares := 200, VotingPower := 200 }] ∧
      Validators.validatorsChanged
          (Candidates.Validators (Candidates.updateVotingPower cs params))
          (Candidates.Validators (Candidates.updateVotingPower
            (setShares B.PubKey 200 (Candidates.updateVotingPower cs params)) params)) =
        (if bytesCompare A.PubKey B.PubKey = 1 then
          [⟨B.PubKey, 200⟩, ⟨A.PubKey, 0⟩]
        else [⟨A.PubKey, 0⟩, ⟨B.PubKey, 200⟩]) ∧
      UpdateValidatorSet (setShares B.PubKey 200 (Candidates.updateVotingPower cs params))
          params =
        (if bytesCompare A.PubKey B.PubKey = 1 then
          [⟨B.PubKey, 200⟩, ⟨A.PubKey, 0⟩]
        else [⟨A.PubKey, 0⟩, ⟨B.PubKey, 200⟩]) := by
  have h1 : Candidates.updateVotingPower cs params =
      [{ A with VotingPower := 100 }, { B with VotingPower := 0 }] := by
    rw [updateVotingPower_pair A B params hp (by omega) hne cs hcs, hA]
  have hset : setShares B.PubKey 200 (Candidates.updateVotingPower cs params) =
      [{ A with VotingPower := 100 }, { B with Shares := 200, VotingPower := 0 }] := by
    rw [h1]
    simp [setShares, hne]
  have h2 : Candidates.updateVotingPower
      (setShares B.PubKey 200 (Candidates.updateVotingPower cs params)) params =
      [{ B with Shares := 200, VotingPower := 200 }, { A with VotingPower := 0 }] := by
    rw [hset]
    rw [updateVotingPower_pair { B with Shares := 200, VotingPower := 0 }
      { A with VotingPower := 100 } params hp (by simp [hA]) (fun h => hne h.symm) _
      (Or.inr rfl)]
  have hv1 : Candidates.Validators (Candidates.updateVotingPower cs params) =
      [{ A with VotingPower := 100 }] := by
    rw [h1, Validators_eq_loop]
    simp [validatorsLoop, Candidate.validator]
  have hv2 : Candidates.Validators (Candidates.updateVotingPower
      (setShares B.PubKey 200 (Candidates.updateVotingPower cs params)) params) =
      [{ B with Shares := 200, VotingPower := 200 }] := by
    rw [h2, Validators_eq_loop]
    simp [validatorsLoop, Candidate.validator]
  have hdiff : Validators.validatorsChanged [{ A with VotingPower := 100 }]
      [{ B with Shares := 200, VotingPower := 200 }] =
      (if bytesCompare A.PubKey B.PubKey = 1 then
        [⟨B.PubKey, 200⟩, ⟨A.PubKey, 0⟩]
      else [⟨A.PubKey, 0⟩, ⟨B.PubKey, 200⟩]) := by
    unfold Validators.validatorsChanged Validators.Sort
    simp only [List.insertionSort, List.orderedInsert]
    rw [changedLoop_cons_cons]
    simp only [ne_eq, hne, not_false_eq_true, if_true]
    split_ifs <;> rfl
  refine ⟨h1, hv1, hv2, ?_, ?_⟩
  · rw [hv1, hv2, hdiff]
  · unfold UpdateValidatorSet
    simp only []
    rw [hv2, hset, Validators_eq_loop]
    simp only [validatorsLoop, Candidate.validator]
    simp only [show ¬ ((100 : Int) = 0) by decide, if_false, if_true]
    exact hdiff

/-- Witness of C8 (amended): A with key `[9]`, B with key `[4]`, loaded as B, A. -/
theorem scenario_two_candidates_witness :
    (mkCandidate [9] 100 0).Shares = 100 ∧ (mkCandidate [4] 50 0).Shares = 50 ∧
      (mkCandidate [9] 100 0).PubKey ≠ (mkCandidate [4] 50 0).PubKey ∧
      Validators.validatorsChanged
          (Candidates.Validators (Candidates.updateVotingPower
            [mkCandidate [4] 50 0, mkCandidate [9] 100 0] ⟨1⟩))
          (Candidates.Validators (Candidates.updateVotingPower
            (setShares (mkCandidate [4] 50 0).PubKey 200 (Candidates.updateVotingPower
              [mkCandidate [4] 50 0, mkCandidate [9] 100 0] ⟨1⟩)) ⟨1⟩)) =
        (if bytesCompare (mkCandidate [9] 100 0).PubKey (mkCandidate [4] 50 0).PubKey = 1
          then [⟨(mkCandidate [4] 50 0).PubKey, 200⟩, ⟨(mkCandidate [9] 100 0).PubKey, 0⟩]
          else [⟨(mkCandidate [9] 100 0).PubKey, 0⟩,
            ⟨(mkCandidate [4] 50 0).PubKey, 200⟩]) :=
  ⟨rfl, rfl, by decide,
    (scenario_two_candidates (mkCandidate [9] 100 0) (mkCandidate [4] 50 0) ⟨1⟩ rfl rfl
      (by decide) rfl [mkCandidate [4] 50 0, mkCandidate [9] 100 0] (Or.inr rfl)).2.2.2.1⟩

/-! ## The unbonding queue -/

/-- Without wrap-around, that is from height `periodUnbonding` on, the release bound is
the mathematical difference. -/
theorem maxHeightToRelease_of_le (c : Consts) (height : Nat) (hh : height < 2 ^ 64)
    (hd : c.periodUnbonding ≤ height) :
    maxHeightToRelease c height = height - c.periodUnbonding := by
  unfold maxHeightToRelease
  have h1 : c.periodUnbonding % 2 ^ 64 = c.periodUnbonding :=
    Nat.mod_eq_of_lt (by omega)
  rw [h1]
  have h2 : height + 2 ^ 64 - c.periodUnbonding = (height - c.periodUnbonding) + 2 ^ 64 := by
    omega
  rw [h2, Nat.add_mod_right]
  exact Nat.mod_eq_of_lt (by omega)

/-- Below height `periodUnbonding` the `uint64` subtraction wraps around. -/
theorem maxHeightToRelease_of_lt (c : Consts) (height : Nat)
    (hd : c.periodUnbonding < 2 ^ 64) (hh : height < c.periodUnbonding) :
    maxHeightToRelease c height = 2 ^ 64 - (c.periodUnbonding - height) := by
  unfold maxHeightToRelease
  rw [Nat.mod_eq_of_lt hd]
  have h2 : height + 2 ^ 64 - c.periodUnbonding = 2 ^ 64 - (c.periodUnbonding - height) := by
    omega
  rw [h2]
  exact Nat.mod_eq_of_lt (by omega)

/-- The loop is not entered for a value of the loop variable that fails its condition:
it ends at once, whatever the bound on the rounds, with queue and ledger as they
were. -/
theorem unbondLoop_not_entered {σ : Type}
    (sendCoins : Actor → Actor → Coins → σ → Except TickError σ)
    (readBinaryBytes : Option QueueElemUnbond → Option TickError) (c : Consts)
    (bonds : List DelegateeBond) (maxHeight : Nat) (unbond : QueueElemUnbond)
    (h : releasable maxHeight unbond = false) (fuel : Nat) (queue : List QueueElemUnbond)
    (s : σ) :
    unbondLoop sendCoins readBinaryBytes c bonds maxHeight unbond fuel queue s =
      some (queue, s, none) := by
  have hcond : (!unbond.Delegatee.Empty && decide (unbond.HeightAtInit ≤ maxHeight)) =
      false := h
  cases fuel with
  | zero => simp [unbondLoop, hcond]
  | succ n => simp [unbondLoop, hcond]

/-- The zero value of the loop variable has an empty delegatee and is never
releasable. -/
theorem releasable_zeroUnbond (maxHeight : Nat) : releasable maxHeight zeroUnbond = false := by
  simp [releasable, zeroUnbond, Actor.Empty]

/-- `processQueueUnbond` never enters its loop: `unbond` is declared with its zero value
and handed to the decoder by value, so the loop condition reads an empty delegatee. The
call returns for every bound on the rounds, with the store and the ledger as they were
and the error of the first failing call of lines 19 to 36, if any. -/
theorem processQueueUnbond_eq {σ : Type}
    (sendCoins : Actor → Actor → Coins → σ → Except TickError σ) (calls : UnbondCalls)
    (c : Consts) (store : Store) (ledger : σ) (height fuel : Nat) :
    processQueueUnbond sendCoins calls c store ledger height fuel =
      some { store := store, ledger := ledger, err := unbondError calls store } := by
  unfold processQueueUnbond unbondError
  cases h1 : calls.loadQueue with
  | some e => rfl
  | none =>
    simp only []
    cases h2 : calls.readBinaryBytes store.queueUnbond.head? with
    | some e => rfl
    | none =>
      simp only []
      cases h3 : calls.loadDelegateeBonds with
      | some e => rfl
      | none =>
        simp only []
        rw [unbondLoop_not_entered sendCoins calls.readBinaryBytes c store.delegateeBonds
          (maxHeightToRelease c height) zeroUnbond (releasable_zeroUnbond _) fuel
          store.queueUnbond ledger]
        rfl

/-- C9 (code bug). For every period `periodUnbonding`, every three queued entries (in
particular entries with a delegatee, inserted at heights `h1 < h2 < h3`) and every
`sendCoins`, with all loads and decodes succeeding: `processQueueUnbond` at height
`h1 + periodUnbonding`, as at height `h1 + periodUnbonding - 1`, returns no error,
pays nothing and leaves all three entries in the queue. The entry inserted at `h1` is
not popped at height `h1 + periodUnbonding`. -/
theorem processQueueUnbond_never_releases {σ : Type}
    (sendCoins : Actor → Actor → Coins → σ → Except TickError σ) (c : Consts)
    (store : Store) (e1 e2 e3 : QueueElemUnbond) (ledger : σ) (fuel : Nat) :
    (processQueueUnbond sendCoins unbondCallsOk c
        { store with queueUnbond := [e1, e2, e3] } ledger
        (e1.HeightAtInit + c.periodUnbonding) fuel).map
        (fun out => (out.store.queueUnbond, out.ledger, out.err)) =
      some ([e1, e2, e3], ledger, none) ∧
    (processQueueUnbond sendCoins unbondCallsOk c
        { store with queueUnbond := [e1, e2, e3] } ledger
        (e1.HeightAtInit + c.periodUnbonding - 1) fuel).map
        (fun out => (out.store.queueUnbond, out.ledger, out.err)) =
      some ([e1, e2, e3], ledger, none) := by
  rw [processQueueUnbond_eq, processQueueUnbond_eq]
  exact ⟨rfl, rfl⟩

/-- C14. `processQueueUnbond` never removes an entry from the unbonding queue without
paying it out: for every queue, store, height and bound on the rounds the call
returns, and, also when it returns an error, the queue is the queue before the call
(so its head is still the head), the rest of the store is unchanged and no payment was
made. -/
theorem processQueueUnbond_keeps_queue {σ : Type}
    (sendCoins : Actor → Actor → Coins → σ → Except TickError σ) (calls : UnbondCalls)
    (c : Consts) (store : Store) (ledger : σ) (height fuel : Nat) :
    ∃ out, processQueueUnbond sendCoins calls c store ledger height fuel = some out ∧
      out.store.queueUnbond = store.queueUnbond ∧
      out.store.queueUnbond.head? = store.queueUnbond.head? ∧
      out.store = store ∧ out.ledger = ledger ∧
      out.err = unbondError calls store :=
  ⟨{ store := store, ledger := ledger, err := unbondError calls store },
    processQueueUnbond_eq sendCoins calls c store ledger height fuel,
    rfl, rfl, rfl, rfl, rfl⟩

/-- Witness of C14: `loadDelegateeBonds` fails on a store whose queue holds one entry;
the call returns that error and the entry is still the head of the queue. -/
theorem processQueueUnbond_keeps_queue_witness :
    ∃ out, processQueueUnbond recordSend ⟨none, fun _ => none, some (TickError.external 1)⟩
        exampleConsts (exampleStore (1 / 2) [exampleUnbond 1]) [] 20 0 = some out ∧
      out.err = some (TickError.external 1) ∧
      out.store.queueUnbond = [exampleUnbond 1] ∧ out.ledger = [] :=
  (processQueueUnbond_keeps_queue recordSend ⟨none, fun _ => none, some (TickError.external 1)⟩
    exampleConsts (exampleStore (1 / 2) [exampleUnbond 1]) [] 20 0).imp
    fun _ h => ⟨h.1, h.2.2.2.2.2, h.2.1, h.2.2.2.2.1⟩

/-- C15 (code bug). `periodUnbonding = 10`, a queue holding one entry of delegatee `[1]`
inserted at height 1, the bond of delegatee `[1]` in the store, height 20, all loads
and decodes succeeding. The entry passes the test of line 40, and yet the call pays
nothing and leaves it at the head of the queue: processing stops at an eligible
entry. -/
theorem processQueueUnbond_pays_nothing :
    releasable (maxHeightToRelease exampleConsts 20) (exampleUnbond 1) = true ∧
      (getDelegateeBond (exampleStore (1 / 2) [exampleUnbond 1]).delegateeBonds
        (exampleUnbond 1).Delegatee).isSome = true ∧
      ∀ fuel, (processQueueUnbond recordSend unbondCallsOk exampleConsts
          (exampleStore (1 / 2) [exampleUnbond 1]) [] 20 fuel).map
          (fun out => (out.store.queueUnbond, out.ledger, out.err)) =
        some ([exampleUnbond 1], [], none) := by
  refine ⟨by decide, by decide, fun fuel => ?_⟩
  rw [processQueueUnbond_eq]
  rfl

/-! ## Reward distribution -/

/-- With commission rate `0` the divisor `coins2 * commCoin` is zero: the commission
arithmetic fails on every input. -/
theorem commTok2Val_zero_commission (reward tok1 tok1Val : Decimal) :
    commTok2Val reward tok1 tok1Val 0 = Except.error TickError.divisionByZero := by
  simp only [commTok2Val, Decimal.Div, bind, Except.bind, pure, Except.pure]
  split_ifs with h
  · rfl
  · simp

/-- The value the commission arithmetic computes when no divisor is zero. -/
theorem commTok2Val_eq (reward tok1 tok1Val commission : Decimal) (h1 : tok1 ≠ 0)
    (h2 : (tok1 + reward) * (reward * ((tok1 - tok1Val) / tok1) * commission) ≠ 0) :
    commTok2Val reward tok1 tok1Val commission =
      Except.ok ((tok1 + reward) * tok1 /
        ((tok1 + reward) * (reward * ((tok1 - tok1Val) / tok1) * commission)) - tok1) := by
  simp only [commTok2Val, Decimal.Div, bind, Except.bind, pure, Except.pure, h1, h2, if_false]

/-- One step of the reward loop for a validator whose credit, self-bond lookup and
commission arithmetic succeed. -/
theorem rewardsLoop_cons_ok {σ : Type} (creditAcc : Actor → Coins → σ → Except TickError σ)
    (c : Consts) (rpp : Decimal) (v : DelegateeBond) (rest : List DelegateeBond)
    (t : Decimal) (store : Store) (s s' : σ) (j : Nat) (sb : DelegatorBond) (x : Decimal)
    (hvp : v.VotingPower ≠ 0)
    (hcr : creditAcc v.Account [⟨c.bondDenom, Decimal.IntPart (v.VotingPower * rpp)⟩] s =
      Except.ok s')
    (hget : getDelegatorBond (loadDelegatorBonds store v.Delegatee) v.Delegatee = some (j, sb))
    (hx : commTok2Val (v.VotingPower * rpp) v.TotalBondTokens sb.BondTokens v.Commission =
      Except.ok x) :
    rewardsLoop creditAcc c rpp (v :: rest) t store s =
      rewardsLoop creditAcc c rpp rest (t + v.VotingPower * rpp)
        (saveDelegatorBonds store v.Delegatee
          (addBondTokens (loadDelegatorBonds store v.Delegatee) j x)) s' := by
  simp only [rewardsLoop, hvp, if_false, hcr, hget, hx]

/-- One step of the reward loop for a validator whose commission arithmetic fails: the
loop ends with that error, after the credit. -/
theorem rewardsLoop_cons_error {σ : Type}
    (creditAcc : Actor → Coins → σ → Except TickError σ)
    (c : Consts) (rpp : Decimal) (v : DelegateeBond) (rest : List DelegateeBond)
    (t : Decimal) (store : Store) (s s' : σ) (j : Nat) (sb : DelegatorBond) (e : TickError)
    (hvp : v.VotingPower ≠ 0)
    (hcr : creditAcc v.Account [⟨c.bondDenom, Decimal.IntPart (v.VotingPower * rpp)⟩] s =
      Except.ok s')
    (hget : getDelegatorBond (loadDelegatorBonds store v.Delegatee) v.Delegatee = some (j, sb))
    (hx : commTok2Val (v.VotingPower * rpp) v.TotalBondTokens sb.BondTokens v.Commission =
      Except.error e) :
    rewardsLoop creditAcc c rpp (v :: rest) t store s =
      (t + v.VotingPower * rpp, store, s', some e) := by
  simp only [rewardsLoop, hvp, if_false, hcr, hget, hx]

/-- `processValidatorRewards` once the division by the total voting power and the
loop are known. -/
theorem processValidatorRewards_eq {σ : Type}
    (creditAcc : Actor → Coins → σ → Except TickError σ) (c : Consts) (store : Store)
    (ledger : σ) (totalVotingPower q : Decimal)
    (r : Decimal × Store × σ × Option TickError)
    (hq : Decimal.Div store.atomSupply totalVotingPower = Except.ok q)
    (hr : rewardsLoop creditAcc c (q * c.inflationPerReward) store.delegateeBonds
      store.atomSupply store ledger = r) :
    processValidatorRewards creditAcc c store ledger totalVotingPower =
      match r.2.2.2 with
      | some e => { store := r.2.1, ledger := r.2.2.1, err := some e }
      | none => { store := { r.2.1 with atomSupply := r.1 }, ledger := r.2.2.1, err := none } := by
  unfold processValidatorRewards
  rw [hq]
  simp only [hr]

theorem loadDelegatorBonds_save (store : Store) (delegatee : Actor)
    (delegators : List DelegatorBond) :
    loadDelegatorBonds (saveDelegatorBonds store delegatee delegators) delegatee =
      delegators := by
  simp [loadDelegatorBonds, saveDelegatorBonds]

/-- C10 (code bug). One validator with commission rate 1/2, voting power 1000 and 1000
bonded tokens, of which 500 are its self-bond and 500 belong to an external delegator;
atom supply 1000, total voting power 1000 and `inflationPerReward = 1/100`, so that
the reward is 10. The pass completes and the self-bond falls from 500 to -100: the
code divides by `coins2 * commCoin` (`1010 * 5/2`), which gives
`commTok2Val = 400 - 1000`. With commission rate 0 the same divisor is zero and the
pass does not complete. -/
theorem processValidatorRewards_commission_loss :
    (processValidatorRewards recordCredit exampleConsts (exampleStore (1 / 2) []) []
        1000).err = none ∧
      loadDelegatorBonds (processValidatorRewards recordCredit exampleConsts
          (exampleStore (1 / 2) []) [] 1000).store (mkActor [1]) =
        [⟨mkActor [9], 500⟩, ⟨mkActor [1], -100⟩] ∧
      ((-100 : ℚ) < 500) ∧
      (processValidatorRewards recordCredit exampleConsts (exampleStore 0 []) []
        1000).err = some TickError.divisionByZero := by
  have hq : ∀ r : Decimal,
      Decimal.Div (exampleStore r []).atomSupply 1000 = Except.ok (1 : ℚ) := by
    intro r
    simp only [Decimal.Div, exampleStore]
    norm_num
  have hreward : (exampleBond (1 / 2)).VotingPower *
      ((1 : ℚ) * exampleConsts.inflationPerReward) = 10 := by
    simp only [exampleBond, exampleConsts]
    norm_num
  have hx : commTok2Val ((exampleBond (1 / 2)).VotingPower *
      ((1 : ℚ) * exampleConsts.inflationPerReward)) (exampleBond (1 / 2)).TotalBondTokens
      (500 : ℚ) (exampleBond (1 / 2)).Commission = Except.ok (-600) := by
    rw [hreward]
    simp only [commTok2Val, Decimal.Div, bind, Except.bind, pure, Except.pure, exampleBond]
    norm_num
  have hloop := rewardsLoop_cons_ok recordCredit exampleConsts
    ((1 : ℚ) * exampleConsts.inflationPerReward) (exampleBond (1 / 2)) [] 1000
    (exampleStore (1 / 2) []) [] _ 1 ⟨mkActor [1], 500⟩ (-600)
    (by simp [exampleBond]) rfl (by decide) hx
  have hloop0 := rewardsLoop_cons_error recordCredit exampleConsts
    ((1 : ℚ) * exampleConsts.inflationPerReward) (exampleBond 0) [] 1000
    (exampleStore 0 []) [] _ 1 ⟨mkActor [1], 500⟩ TickError.divisionByZero
    (by simp [exampleBond]) rfl (by decide) (commTok2Val_zero_commission _ _ _)
  have hadd : addBondTokens (loadDelegatorBonds (exampleStore (1 / 2) [])
      (exampleBond (1 / 2)).Delegatee) 1 (-600) =
      [⟨mkActor [9], 500⟩, ⟨mkActor [1], -100⟩] := by
    have h0 : loadDelegatorBonds (exampleStore (1 / 2) []) (exampleBond (1 / 2)).Delegatee =
        [⟨mkActor [9], 500⟩, ⟨mkActor [1], 500⟩] := by decide
    rw [h0]
    have h1 : addBondTokens [⟨mkActor [9], 500⟩, ⟨mkActor [1], 500⟩] 1 (-600) =
        [⟨mkActor [9], 500⟩, ⟨mkActor [1], 500 + -600⟩] := rfl
    rw [h1]
    norm_num
  rw [hadd] at hloop
  rw [processValidatorRewards_eq recordCredit exampleConsts (exampleStore (1 / 2) []) [] 1000
    1 _ (hq _) hloop,
    processValidatorRewards_eq recordCredit exampleConsts (exampleStore 0 []) [] 1000
    1 _ (hq _) hloop0]
  refine ⟨rfl, ?_, by norm_num, rfl⟩
  simp only [rewardsLoop]
  exact loadDelegatorBonds_save (exampleStore (1 / 2) []) (exampleBond (1 / 2)).Delegatee
    [⟨mkActor [9], 500⟩, ⟨mkActor [1], -100⟩]

/-! ## The single-candidate case of `Validators()` -/

/-- C17. A list consisting of exactly one candidate whose voting power is `0` yields an
empty validator list from `Validators()` (length 0), not a one-element list. -/
theorem Validators_single_zero (c : Candidate) (h : c.VotingPower = 0) :
    Candidates.Validators [c] = [] ∧ (Candidates.Validators [c]).length = 0 := by
  have hv : Candidates.Validators [c] = [] := by
    unfold Candidates.Validators
    simp [h]
  rw [hv]
  exact ⟨rfl, rfl⟩

/-- Witness of C17: the single candidate with key `[1]`, shares 50 and power 0. -/
theorem Validators_single_zero_witness :
    (mkCandidate [1] 50 0).VotingPower = 0 ∧
      Candidates.Validators [mkCandidate [1] 50 0] = [] ∧
      (Candidates.Validators [mkCandidate [1] 50 0]).length = 0 :=
  ⟨rfl, Validators_single_zero (mkCandidate [1] 50 0) rfl⟩

/-! ## Transaction checks -/

theorem Coins.IsPositive_single (coin : Coin) :
    Coins.IsPositive [coin] = true ↔ coin.Amount > 0 := by
  simp [Coins.IsPositive]

/-- C18. `BondUpdate.ValidateBasic` (the check of `TxDeclareCandidacy` and `TxDelegate`)
returns no error if and only if the public key is non-empty, the one-coin set of the
bond is valid and its amount is strictly positive; an empty public key yields
`errCandidateEmpty` whatever the coin is, and a non-positive amount is always
rejected. -/
theorem BondUpdate_ValidateBasic_spec (tx : BondUpdate) :
    (BondUpdate.ValidateBasic tx = none ↔
        PubKeyEmpty tx.PubKey = false ∧ Coins.IsValid [tx.Bond] = true ∧
          tx.Bond.Amount > 0) ∧
      (PubKeyEmpty tx.PubKey = true →
        BondUpdate.ValidateBasic tx = some TxError.candidateEmpty) ∧
      (tx.Bond.Amount ≤ 0 → BondUpdate.ValidateBasic tx ≠ none) ∧
      (∀ d : Description,
        TxDeclareCandidacy.ValidateBasic ⟨tx, d⟩ = BondUpdate.ValidateBasic tx) ∧
      TxDelegate.ValidateBasic ⟨tx⟩ = BondUpdate.ValidateBasic tx := by
  have hiff : BondUpdate.ValidateBasic tx = none ↔
      PubKeyEmpty tx.PubKey = false ∧ Coins.IsValid [tx.Bond] = true ∧
        tx.Bond.Amount > 0 := by
    unfold BondUpdate.ValidateBasic
    rw [← Coins.IsPositive_single]
    by_cases h1 : PubKeyEmpty tx.PubKey = true <;>
      by_cases h2 : Coins.IsValid [tx.Bond] = true <;>
      by_cases h3 : Coins.IsPositive [tx.Bond] = true <;> simp [h1, h2, h3]
  refine ⟨hiff, fun he => ?_, fun hle hnone => ?_, fun _ => rfl, rfl⟩
  · unfold BondUpdate.ValidateBasic
    simp [he]
  · have := (hiff.1 hnone).2.2
    omega

/-- C19. `TxEditCandidacy.ValidateBasic` returns no error if and only if the public key
is non-empty and at least one of the four description fields (moniker, identity,
website, details) is a non-empty string; an empty public key yields
`errCandidateEmpty`. -/
theorem TxEditCandidacy_ValidateBasic_spec (tx : TxEditCandidacy) :
    (TxEditCandidacy.ValidateBasic tx = none ↔
        PubKeyEmpty tx.PubKey = false ∧
          (tx.Description.Moniker ≠ "" ∨ tx.Description.Identity ≠ "" ∨
            tx.Description.Website ≠ "" ∨ tx.Description.Details ≠ "")) ∧
      (PubKeyEmpty tx.PubKey = true →
        TxEditCandidacy.ValidateBasic tx = some TxError.candidateEmpty) := by
  have hd : tx.Description = (⟨"", "", "", ""⟩ : Description) ↔
      ¬ (tx.Description.Moniker ≠ "" ∨ tx.Description.Identity ≠ "" ∨
        tx.Description.Website ≠ "" ∨ tx.Description.Details ≠ "") := by
    rcases tx with ⟨pk, ⟨m, i, w, d⟩⟩
    simp only [Description.mk.injEq, ne_eq, not_or, not_not]
  constructor
  · unfold TxEditCandidacy.ValidateBasic
    cases PubKeyEmpty tx.PubKey
    · simp only [Bool.false_eq_true, if_false, true_and]
      split_ifs with h
      · simp only [reduceCtorEq, false_iff]
        exact hd.1 h
      · simp only [true_iff]
        exact not_not.1 (fun hn => h (hd.2 hn))
    · simp
  · intro he
    unfold TxEditCandidacy.ValidateBasic
    simp [he]

/-- C20. `TxUnbond.ValidateBasic` returns no error if and only if the public key is
non-empty and the shares are positive; an empty public key yields `errCandidateEmpty`,
also when the shares are `0`. -/
theorem TxUnbond_ValidateBasic_spec (tx : TxUnbond) :
    (TxUnbond.ValidateBasic tx = none ↔ PubKeyEmpty tx.PubKey = false ∧ tx.Shares > 0) ∧
      (PubKeyEmpty tx.PubKey = true →
        TxUnbond.ValidateBasic tx = some TxError.candidateEmpty) := by
  constructor
  · unfold TxUnbond.ValidateBasic
    cases PubKeyEmpty tx.PubKey
    · simp only [Bool.false_eq_true, if_false, true_and]
      split_ifs with h
      · simp only [reduceCtorEq, false_iff]
        omega
      · simp only [true_iff]
        omega
    · simp
  · intro he
    unfold TxUnbond.ValidateBasic
    simp [he]

/-! ## The commission formula -/

/-- The reward pass on the example store with commission rate 1/2: the reward is 10,
credited to the validator's account; the self-bond becomes `500 + (-600)`; the saved
supply is 1010. -/
theorem exampleRewards_outcome :
    processValidatorRewards recordCredit exampleConsts (exampleStore (1 / 2) []) [] 1000 =
      { store :=
          { saveDelegatorBonds (exampleStore (1 / 2) []) (mkActor [1])
              [⟨mkActor [9], 500⟩, ⟨mkActor [1], -100⟩] with atomSupply := 1010 },
        ledger := [(mkActor [2], [⟨"fermion", 10⟩])],
        err := none } := by
  have hq : Decimal.Div (exampleStore (1 / 2) []).atomSupply 1000 = Except.ok (1 : ℚ) := by
    simp only [Decimal.Div, exampleStore]
    norm_num
  have hreward : (exampleBond (1 / 2)).VotingPower *
      ((1 : ℚ) * exampleConsts.inflationPerReward) = 10 := by
    simp only [exampleBond, exampleConsts]
    norm_num
  have hx : commTok2Val ((exampleBond (1 / 2)).VotingPower *
      ((1 : ℚ) * exampleConsts.inflationPerReward)) (exampleBond (1 / 2)).TotalBondTokens
      (500 : ℚ) (exampleBond (1 / 2)).Commission = Except.ok (-600) := by
    rw [hreward]
    simp only [commTok2Val, Decimal.Div, bind, Except.bind, pure, Except.pure, exampleBond]
    norm_num
  have hint : Decimal.IntPart (10 : ℚ) = 10 := by
    simp [Decimal.IntPart]
  have hcr : recordCredit (exampleBond (1 / 2)).Account
      [⟨exampleConsts.bondDenom, Decimal.IntPart ((exampleBond (1 / 2)).VotingPower *
        ((1 : ℚ) * exampleConsts.inflationPerReward))⟩] [] =
      Except.ok [(mkActor [2], [⟨"fermion", 10⟩])] := by
    rw [hreward, hint]
    rfl
  have hloop := rewardsLoop_cons_ok recordCredit exampleConsts
    ((1 : ℚ) * exampleConsts.inflationPerReward) (exampleBond (1 / 2)) [] 1000
    (exampleStore (1 / 2) []) [] _ 1 ⟨mkActor [1], 500⟩ (-600)
    (by simp [exampleBond]) hcr (by decide) hx
  have hadd : addBondTokens (loadDelegatorBonds (exampleStore (1 / 2) [])
      (exampleBond (1 / 2)).Delegatee) 1 (-600) =
      [⟨mkActor [9], 500⟩, ⟨mkActor [1], -100⟩] := by
    have h0 : loadDelegatorBonds (exampleStore (1 / 2) []) (exampleBond (1 / 2)).Delegatee =
        [⟨mkActor [9], 500⟩, ⟨mkActor [1], 500⟩] := by decide
    rw [h0]
    have h1 : addBondTokens [⟨mkActor [9], 500⟩, ⟨mkActor [1], 500⟩] 1 (-600) =
        [⟨mkActor [9], 500⟩, ⟨mkActor [1], 500 + -600⟩] := rfl
    rw [h1]
    norm_num
  have hsum : (1000 : ℚ) + (exampleBond (1 / 2)).VotingPower *
      ((1 : ℚ) * exampleConsts.inflationPerReward) = 1010 := by
    rw [hreward]
    norm_num
  rw [hadd, hsum] at hloop
  rw [processValidatorRewards_eq recordCredit exampleConsts (exampleStore (1 / 2) []) [] 1000
    1 _ hq hloop]
  rfl

/-- C11 (code bug). On the validator of the example store (reward 10, 1000 bonded
tokens, self-bond 500, commission rate 1/2, so `coins2 = 1010` and `commCoin = 5/2`)
the code computes `commTok2Val = -600` and the pass adds that to the self-bond, which
becomes -100; the formula `((coins2 * tok1) / (coins2 - commCoin)) - tok1` gives
`1000/403`, and that value does solve `rate * (tok1 + x) = coins2` with
`rate * tok1 = coins2 - commCoin`. -/
theorem commTok2Val_not_documented :
    commTok2Val 10 1000 500 (1 / 2) = Except.ok (-600) ∧
      commTok2ValDocumented 10 1000 500 (1 / 2) = 1000 / 403 ∧
      ((1010 - 5 / 2 : ℚ) / 1000) * (1000 + 1000 / 403) = 1010 ∧
      (-600 : ℚ) ≠ 1000 / 403 ∧
      loadDelegatorBonds (processValidatorRewards recordCredit exampleConsts
          (exampleStore (1 / 2) []) [] 1000).store (mkActor [1]) =
        [⟨mkActor [9], 500⟩, ⟨mkActor [1], 500 + -600⟩] := by
  refine ⟨?_, ?_, by norm_num, by norm_num, ?_⟩
  · simp only [commTok2Val, Decimal.Div, bind, Except.bind, pure, Except.pure]
    norm_num
  · simp only [commTok2ValDocumented]
    norm_num
  · rw [exampleRewards_outcome]
    have h : (500 : ℚ) + -600 = -100 := by norm_num
    rw [h]
    exact loadDelegatorBonds_save (exampleStore (1 / 2) []) (mkActor [1])
      [⟨mkActor [9], 500⟩, ⟨mkActor [1], -100⟩]

/-! ## Reward conservation -/

/-- A loop that ends without error has added to `totalAtoms` the reward of every
validator of the leading run of nonzero voting power. -/
theorem rewardsLoop_total {σ : Type} (creditAcc : Actor → Coins → σ → Except TickError σ)
    (c : Consts) (rpp : Decimal) : ∀ (vs : List DelegateeBond) (t : Decimal) (store : Store)
      (s : σ), (rewardsLoop creditAcc c rpp vs t store s).2.2.2 = none →
      (rewardsLoop creditAcc c rpp vs t store s).1 =
        t + ((leadingValidators vs).map (fun v => v.VotingPower * rpp)).sum
  | [], t, store, s, _ => by simp [rewardsLoop, leadingValidators]
  | v :: vs, t, store, s, h => by
    unfold rewardsLoop at h ⊢
    by_cases hvp : v.VotingPower = 0
    · simp [hvp, leadingValidators]
    · simp only [hvp, if_false] at h ⊢
      have hrun : leadingValidators (v :: vs) = v :: leadingValidators vs := by
        simp [leadingValidators, List.takeWhile, hvp]
      rw [hrun, List.map_cons, List.sum_cons, ← add_assoc]
      cases hcr : creditAcc v.Account
          [⟨c.bondDenom, Decimal.IntPart (v.VotingPower * rpp)⟩] s with
      | error e => simp [hcr] at h
      | ok s' =>
        simp only [hcr] at h ⊢
        cases hget : getDelegatorBond (loadDelegatorBonds store v.Delegatee) v.Delegatee with
        | none => simp [hget] at h
        | some p =>
          simp only [hget] at h ⊢
          cases hx : commTok2Val (v.VotingPower * rpp) v.TotalBondTokens p.2.BondTokens
              v.Commission with
          | error e => simp [hx] at h
          | ok x =>
            simp only [hx] at h ⊢
            exact rewardsLoop_total creditAcc c rpp vs _ _ _ h

/-- The reward loop never writes the atom supply of the store it carries. -/
theorem processValidatorRewards_supply {σ : Type}
    (creditAcc : Actor → Coins → σ → Except TickError σ) (c : Consts) (store : Store)
    (ledger : σ) (totalVotingPower : Decimal)
    (h : (processValidatorRewards creditAcc c store ledger totalVotingPower).err = none) :
    totalVotingPower ≠ 0 ∧
      (processValidatorRewards creditAcc c store ledger totalVotingPower).store.atomSupply =
        store.atomSupply + ((leadingValidators store.delegateeBonds).map
          (fun v => v.VotingPower *
            (store.atomSupply / totalVotingPower * c.inflationPerReward))).sum := by
  unfold processValidatorRewards at h ⊢
  unfold Decimal.Div at h ⊢
  by_cases h0 : totalVotingPower = 0
  · simp [h0] at h
  · simp only [h0, if_false] at h ⊢
    refine ⟨h0, ?_⟩
    cases hr : (rewardsLoop creditAcc c
        (store.atomSupply / totalVotingPower * c.inflationPerReward) store.delegateeBonds
        store.atomSupply store ledger).2.2.2 with
    | some e => simp [hr] at h
    | none =>
      simp only [hr]
      exact rewardsLoop_total creditAcc c _ _ _ _ _ hr

/-- C12. In exact arithmetic, after a successful pass of `processValidatorRewards` the
saved total supply equals the loaded total supply plus the sum of
`reward = VotingPower * rewardPerPower` over exactly the validators in the maximal
leading run of nonzero voting power; and when the supplied total voting power equals
the sum of those validators' voting power, that sum of rewards equals
`rewardPerPower * totalVotingPower = oldTotalSupply * inflationPerReward`. -/
theorem processValidatorRewards_conservation {σ : Type}
    (creditAcc : Actor → Coins → σ → Except TickError σ) (c : Consts) (store : Store)
    (ledger : σ) (totalVotingPower : Decimal)
    (h : (processValidatorRewards creditAcc c store ledger totalVotingPower).err = none) :
    (processValidatorRewards creditAcc c store ledger totalVotingPower).store.atomSupply =
        store.atomSupply + ((leadingValidators store.delegateeBonds).map
          (fun v => v.VotingPower *
            (store.atomSupply / totalVotingPower * c.inflationPerReward))).sum ∧
      (totalVotingPower =
          ((leadingValidators store.delegateeBonds).map (fun v => v.VotingPower)).sum →
        ((leadingValidators store.delegateeBonds).map
          (fun v => v.VotingPower *
            (store.atomSupply / totalVotingPower * c.inflationPerReward))).sum =
          store.atomSupply / totalVotingPower * c.inflationPerReward * totalVotingPower ∧
        store.atomSupply / totalVotingPower * c.inflationPerReward * totalVotingPower =
          store.atomSupply * c.inflationPerReward) := by
  obtain ⟨h0, hsupply⟩ := processValidatorRewards_supply creditAcc c store ledger
    totalVotingPower h
  refine ⟨hsupply, fun htot => ⟨?_, ?_⟩⟩
  · rw [List.sum_map_mul_right]
    rw [← htot]
    ring
  · field_simp

/-- Witness of C12: the example store, one validator with voting power 1000 and total
voting power 1000; the supply goes from 1000 to `1000 + 1000 * (1000/1000 * 1/100)`. -/
theorem processValidatorRewards_conservation_witness :
    (processValidatorRewards recordCredit exampleConsts (exampleStore (1 / 2) []) []
        1000).err = none ∧
      (processValidatorRewards recordCredit exampleConsts (exampleStore (1 / 2) []) []
        1000).store.atomSupply =
        (exampleStore (1 / 2) []).atomSupply +
          ((leadingValidators (exampleStore (1 / 2) []).delegateeBonds).map
            (fun v => v.VotingPower * ((exampleStore (1 / 2) []).atomSupply / 1000 *
              exampleConsts.inflationPerReward))).sum :=
  ⟨by rw [exampleRewards_outcome],
    (processValidatorRewards_conservation recordCredit exampleConsts
      (exampleStore (1 / 2) []) [] 1000 (by rw [exampleRewards_outcome])).1⟩

/-! ## Divisions of the reward pass -/

/-- With no bonded tokens the divisor `tok1` is zero: the commission arithmetic fails
on every input. -/
theorem commTok2Val_zero_tokens (reward tok1Val commission : Decimal) :
    commTok2Val reward 0 tok1Val commission = Except.error TickError.divisionByZero := by
  simp only [commTok2Val, Decimal.Div, bind, Except.bind, pure, Except.pure, if_true]

/-- A reward loop whose leading run of nonzero voting power holds a validator without
bonded tokens ends with an error. -/
theorem rewardsLoop_zero_tokens {σ : Type}
    (creditAcc : Actor → Coins → σ → Except TickError σ) (c : Consts) (rpp : Decimal) :
    ∀ (vs : List DelegateeBond) (t : Decimal) (store : Store) (s : σ),
      (∃ v ∈ leadingValidators vs, v.TotalBondTokens = 0) →
      (rewardsLoop creditAcc c rpp vs t store s).2.2.2 ≠ none
  | [], _, _, _, h => by
    obtain ⟨v, hv, _⟩ := h
    simp [leadingValidators] at hv
  | v :: vs, t, store, s, h => by
    obtain ⟨w, hw, hw0⟩ := h
    by_cases hvp : v.VotingPower = 0
    · simp [leadingValidators, hvp] at hw
    · have hrun : leadingValidators (v :: vs) = v :: leadingValidators vs := by
        simp [leadingValidators, List.takeWhile, hvp]
      rw [hrun] at hw
      unfold rewardsLoop
      simp only [hvp, if_false]
      cases hcr : creditAcc v.Account
          [⟨c.bondDenom, Decimal.IntPart (v.VotingPower * rpp)⟩] s with
      | error e => simp
      | ok s' =>
        simp only []
        cases hget : getDelegatorBond (loadDelegatorBonds store v.Delegatee) v.Delegatee with
        | none => simp
        | some p =>
          simp only []
          cases hx : commTok2Val (v.VotingPower * rpp) v.TotalBondTokens p.2.BondTokens
              v.Commission with
          | error e => simp
          | ok x =>
            simp only []
            rcases List.mem_cons.1 hw with rfl | hw'
            · rw [hw0, commTok2Val_zero_tokens] at hx
              exact absurd hx (by simp)
            · exact rewardsLoop_zero_tokens creditAcc c rpp vs _ _ _ ⟨w, hw', hw0⟩

/-- Counterexample to C13: with `totalVotingPower = 0` the division of the total supply
by it has a zero divisor; nothing guards it. -/
theorem processValidatorRewards_zero_power_unguarded :
    (processValidatorRewards recordCredit exampleConsts (exampleStore (1 / 2) []) []
      0).err = some TickError.divisionByZero := by
  simp [processValidatorRewards, Decimal.Div]

/-- C13 (amended). `processValidatorRewards` does not guard its divisions. With
`totalVotingPower = 0` the division by it has a zero divisor and the pass stops there,
before any credit and any write. For a first validator with nonzero voting power and
`TotalBondTokens = 0`, whose credit succeeds and whose self-bond exists, the division
by `tok1` has a zero divisor and the pass stops there; and no pass completes whose
leading run of nonzero voting power holds a validator with `TotalBondTokens = 0`. -/
theorem processValidatorRewards_unguarded {σ : Type}
    (creditAcc : Actor → Coins → σ → Except TickError σ) (c : Consts) (store : Store)
    (ledger : σ) :
    ((processValidatorRewards creditAcc c store ledger 0).err =
        some TickError.divisionByZero ∧
      (processValidatorRewards creditAcc c store ledger 0).store = store ∧
      (processValidatorRewards creditAcc c store ledger 0).ledger = ledger) ∧
    (∀ (totalVotingPower : Decimal) (v : DelegateeBond) (rest : List DelegateeBond)
        (s' : σ) (j : Nat) (sb : DelegatorBond),
      totalVotingPower ≠ 0 → store.delegateeBonds = v :: rest → v.VotingPower ≠ 0 →
      v.TotalBondTokens = 0 →
      creditAcc v.Account [⟨c.bondDenom, Decimal.IntPart (v.VotingPower *
        (store.atomSupply / totalVotingPower * c.inflationPerReward))⟩] ledger =
          Except.ok s' →
      getDelegatorBond (loadDelegatorBonds store v.Delegatee) v.Delegatee = some (j, sb) →
      (processValidatorRewards creditAcc c store ledger totalVotingPower).err =
        some TickError.divisionByZero) ∧
    (∀ totalVotingPower : Decimal,
      (∃ v ∈ leadingValidators store.delegateeBonds, v.TotalBondTokens = 0) →
      (processValidatorRewards creditAcc c store ledger totalVotingPower).err ≠ none) := by
  refine ⟨?_, ?_, ?_⟩
  · simp [processValidatorRewards, Decimal.Div]
  · intro tvp v rest s' j sb htvp hbonds hvp htok hcr hget
    have hq : Decimal.Div store.atomSupply tvp = Except.ok (store.atomSupply / tvp) := by
      simp [Decimal.Div, htvp]
    have hx : commTok2Val (v.VotingPower * (store.atomSupply / tvp * c.inflationPerReward))
        v.TotalBondTokens sb.BondTokens v.Commission =
        Except.error TickError.divisionByZero := by
      rw [htok]
      exact commTok2Val_zero_tokens _ _ _
    have hloop := rewardsLoop_cons_error creditAcc c
      (store.atomSupply / tvp * c.inflationPerReward) v rest store.atomSupply store ledger s'
      j sb TickError.divisionByZero hvp hcr hget hx
    rw [← hbonds] at hloop
    rw [processValidatorRewards_eq creditAcc c store ledger tvp _ _ hq hloop]
  · intro tvp hex
    unfold processValidatorRewards Decimal.Div
    by_cases h0 : tvp = 0
    · simp [h0]
    · simp only [h0, if_false]
      have hne := rewardsLoop_zero_tokens creditAcc c
        (store.atomSupply / tvp * c.inflationPerReward) store.delegateeBonds
        store.atomSupply store ledger hex
      cases hr : (rewardsLoop creditAcc c
          (store.atomSupply / tvp * c.inflationPerReward) store.delegateeBonds
          store.atomSupply store ledger).2.2.2 with
      | none => exact absurd hr hne
      | some e => simp

/-- Witness of C13 (amended): a validator with voting power 1000 and no bonded tokens,
total voting power 1000; the pass stops at the division by `tok1`. -/
theorem processValidatorRewards_unguarded_witness :
    (1000 : Decimal) ≠ 0 ∧
      (processValidatorRewards recordCredit exampleConsts exampleStoreNoTokens []
        1000).err = some TickError.divisionByZero :=
  ⟨by norm_num,
    (processValidatorRewards_unguarded recordCredit exampleConsts exampleStoreNoTokens
      []).2.1 1000 ⟨mkActor [1], mkActor [2], 1000, 0, 1 / 2, 3 / 2⟩ [] _ 0
      ⟨mkActor [1], 0⟩ (by norm_num) rfl (by simp) rfl rfl (by decide)⟩

/-! ## The commission-history queue -/

/-- While the entry is not younger than the current height, the `uint64` age test is
the mathematical one. -/
theorem olderThanHistory_iff (c : Consts) (height : Nat) (e : QueueElemModComm)
    (hh : height < 2 ^ 64) (he : e.HeightAtInit ≤ height) :
    olderThanHistory c height e = true ↔ height - e.HeightAtInit > c.periodCommHistory := by
  unfold olderThanHistory
  have h1 : e.HeightAtInit % 2 ^ 64 = e.HeightAtInit := Nat.mod_eq_of_lt (by omega)
  have h2 : height + 2 ^ 64 - e.HeightAtInit = (height - e.HeightAtInit) + 2 ^ 64 := by omega
  have h3 : (height - e.HeightAtInit) % 2 ^ 64 = height - e.HeightAtInit :=
    Nat.mod_eq_of_lt (by omega)
  rw [h1, h2, Nat.add_mod_right, h3]
  simp

/-- The loop is not entered for a value of the loop variable that fails its condition:
it ends at once, whatever the bound on the rounds, with the queue as it was. -/
theorem commHistoryLoop_not_entered
    (readBinaryBytes : Option QueueElemModComm → Option TickError) (c : Consts)
    (height : Nat) (commission : QueueElemModComm)
    (h : (!commission.Delegatee.Empty && olderThanHistory c height commission) = false)
    (fuel : Nat) (queue : List QueueElemModComm) :
    commHistoryLoop readBinaryBytes c height commission fuel queue = some (queue, none) := by
  cases fuel with
  | zero => simp [commHistoryLoop, h]
  | succ n => simp [commHistoryLoop, h]

/-- `processQueueCommHistory` never enters its loop: `commission` is declared with its
zero value and handed to the decoder by value, so the loop condition reads an empty
delegatee. The call returns for every bound on the rounds, with the store as it was and
the error of the first failing call of lines 74 to 85, if any. -/
theorem processQueueCommHistory_eq (calls : CommissionCalls) (c : Consts) (store : Store)
    (height fuel : Nat) :
    processQueueCommHistory calls c store height fuel =
      some (store, commissionError calls store) := by
  unfold processQueueCommHistory commissionError
  cases h1 : calls.loadQueue with
  | some e => rfl
  | none =>
    simp only []
    cases h2 : calls.readBinaryBytes store.queueCommission.head? with
    | some e => rfl
    | none =>
      simp only []
      rw [commHistoryLoop_not_entered calls.readBinaryBytes c height zeroModComm
        (by simp [zeroModComm, Actor.Empty]) fuel store.queueCommission]
      rfl

/-- C16 (code bug). For every period, queue, height and bound on the rounds, with the
load and the decodes succeeding, `processQueueCommHistory` returns no error and leaves
the whole queue in place; so does it for `periodCommHistory = 20`, height 100 and a
queue holding one entry of delegatee `[1]` inserted at height 0, which is older than
the period (`100 - 0 > 20`) and is not removed. -/
theorem processQueueCommHistory_purges_nothing :
    (∀ (c : Consts) (store : Store) (queue : List QueueElemModComm) (height fuel : Nat),
      processQueueCommHistory commissionCallsOk c
          { store with queueCommission := queue } height fuel =
        some ({ store with queueCommission := queue }, none)) ∧
      (⟨mkActor [1], 0⟩ : QueueElemModComm).Delegatee.Empty = false ∧
      olderThanHistory exampleConsts 100 ⟨mkActor [1], 0⟩ = true ∧
      100 - (⟨mkActor [1], 0⟩ : QueueElemModComm).HeightAtInit >
        exampleConsts.periodCommHistory ∧
      ∀ fuel, (processQueueCommHistory commissionCallsOk exampleConsts
          { exampleStore (1 / 2) [] with queueCommission := [⟨mkActor [1], 0⟩] }
          100 fuel).map (fun r => (r.1.queueCommission, r.2)) =
        some ([⟨mkActor [1], 0⟩], none) := by
  refine ⟨fun c store queue height fuel => ?_, by decide, by decide, by decide,
    fun fuel => ?_⟩
  · rw [processQueueCommHistory_eq]
    rfl
  · rw [processQueueCommHistory_eq]
    rfl

/-! ## Concrete instances -/

/-- Witness of C18: an empty key with a valid coin is rejected with
`errCandidateEmpty`, and a bond of -5 is rejected. -/
theorem BondUpdate_ValidateBasic_spec_witness :
    PubKeyEmpty [] = true ∧
      BondUpdate.ValidateBasic ⟨[], ⟨"fermion", 5⟩⟩ = some TxError.candidateEmpty ∧
      BondUpdate.ValidateBasic ⟨[1], ⟨"fermion", -5⟩⟩ ≠ none :=
  ⟨rfl, (BondUpdate_ValidateBasic_spec ⟨[], ⟨"fermion", 5⟩⟩).2.1 rfl,
    (BondUpdate_ValidateBasic_spec ⟨[1], ⟨"fermion", -5⟩⟩).2.2.1 (by decide)⟩

/-- Witness of C19: an empty key with a website to set is rejected with
`errCandidateEmpty`. -/
theorem TxEditCandidacy_ValidateBasic_spec_witness :
    PubKeyEmpty [] = true ∧
      TxEditCandidacy.ValidateBasic ⟨[], ⟨"", "", "site", ""⟩⟩ =
        some TxError.candidateEmpty :=
  ⟨rfl, (TxEditCandidacy_ValidateBasic_spec ⟨[], ⟨"", "", "site", ""⟩⟩).2 rfl⟩

/-- Witness of C20: an empty key with no shares is rejected with
`errCandidateEmpty`. -/
theorem TxUnbond_ValidateBasic_spec_witness :
    PubKeyEmpty [] = true ∧ TxUnbond.ValidateBasic ⟨[], 0⟩ = some TxError.candidateEmpty :=
  ⟨rfl, (TxUnbond_ValidateBasic_spec ⟨[], 0⟩).2 rfl⟩

/-! ## `TxDefineService` -/

/-- C21. `TxDefineService.ValidateBasic` returns no error if and only if both name and
description are non-empty strings; it returns `errServiceNameEmpty` when the name is
empty (also when the description is empty too) and `errServiceDescEmpty` when only the
description is empty. -/
theorem TxDefineService_ValidateBasic_spec (tx : TxDefineService) :
    (TxDefineService.ValidateBasic tx = none ↔ tx.Name ≠ "" ∧ tx.Description ≠ "") ∧
      (tx.Name = "" → TxDefineService.ValidateBasic tx = some TxError.serviceNameEmpty) ∧
      (tx.Name ≠ "" → tx.Description = "" →
        TxDefineService.ValidateBasic tx = some TxError.serviceDescEmpty) := by
  unfold TxDefineService.ValidateBasic
  refine ⟨?_, fun hn => ?_, fun hn hd => ?_⟩
  · by_cases hn : tx.Name = "" <;> by_cases hd : tx.Description = "" <;> simp [hn, hd]
  · simp [hn]
  · simp [hn, hd]

/-- Witness of C21: both fields empty give `errServiceNameEmpty`; a name without
description gives `errServiceDescEmpty`. -/
theorem TxDefineService_ValidateBasic_spec_witness :
    TxDefineService.ValidateBasic ⟨"", ""⟩ = some TxError.serviceNameEmpty ∧
      TxDefineService.ValidateBasic ⟨"dns", ""⟩ = some TxError.serviceDescEmpty :=
  ⟨(TxDefineService_ValidateBasic_spec ⟨"", ""⟩).2.1 rfl,
    (TxDefineService_ValidateBasic_spec ⟨"dns", ""⟩).2.2 (by decide) rfl⟩

/-! ## What `updateVotingPower` leaves alone -/

theorem withoutVotingPower_setVotingPower (c : Candidate) :
    withoutVotingPower (setVotingPower c) = withoutVotingPower c := by
  rw [setVotingPower_eq]
  rfl

theorem map_withoutVotingPower_truncatePower (k : Nat) : ∀ (i : Nat) (cs : Candidates),
    (truncatePower k i cs).map withoutVotingPower = cs.map withoutVotingPower
  | _, [] => rfl
  | i, c :: cs => by
    simp only [truncatePower, List.map_cons]
    rw [map_withoutVotingPower_truncatePower k (i + 1) cs]
    congr 1
    split_ifs <;> rfl

/-- C23. `updateVotingPower` (with any sorting routine that returns a permutation of
its input) changes nothing but the voting power: with the voting power blanked, the
returned sequence is a permutation of the input, so every candidate keeps its status,
public key, owner, pool shares, delegator shares, shares and description, and no
candidate is added, dropped or duplicated. -/
theorem updateVotingPower_frame (sort : Candidates → Candidates)
    (hsort : ∀ l, (sort l).Perm l) (cs : Candidates) (params : Params) :
    ((Candidates.updateVotingPowerWith sort cs params).map withoutVotingPower).Perm
        (cs.map withoutVotingPower) ∧
      (Candidates.updateVotingPowerWith sort cs params).length = cs.length ∧
      ∀ c ∈ Candidates.updateVotingPowerWith sort cs params, ∃ d ∈ cs,
        c.Status = d.Status ∧ c.PubKey = d.PubKey ∧ c.Owner = d.Owner ∧
        c.SharesPool = d.SharesPool ∧ c.SharesIssuedDelegator = d.SharesIssuedDelegator ∧
        c.Shares = d.Shares ∧ c.Description = d.Description := by
  have hperm : ((Candidates.updateVotingPowerWith sort cs params).map
      withoutVotingPower).Perm (cs.map withoutVotingPower) := by
    unfold Candidates.updateVotingPowerWith
    rw [map_withoutVotingPower_truncatePower]
    have h1 := (hsort (cs.map setVotingPower)).map withoutVotingPower
    have h2 : (cs.map setVotingPower).map withoutVotingPower = cs.map withoutVotingPower := by
      rw [List.map_map]
      exact List.map_congr_left (fun c _ => withoutVotingPower_setVotingPower c)
    rw [h2] at h1
    exact h1
  refine ⟨hperm, ?_, fun c hc => ?_⟩
  · have := hperm.length_eq
    simpa using this
  · have hc' : withoutVotingPower c ∈ cs.map withoutVotingPower :=
      hperm.subset (List.mem_map_of_mem _ hc)
    obtain ⟨d, hd, hcd⟩ := List.mem_map.1 hc'
    refine ⟨d, hd, ?_⟩
    have hS := congrArg Candidate.Status hcd
    have hK := congrArg Candidate.PubKey hcd
    have hO := congrArg Candidate.Owner hcd
    have hP := congrArg Candidate.SharesPool hcd
    have hI := congrArg Candidate.SharesIssuedDelegator hcd
    have hSh := congrArg Candidate.Shares hcd
    have hD := congrArg Candidate.Description hcd
    exact ⟨hS.symm, hK.symm, hO.symm, hP.symm, hI.symm, hSh.symm, hD.symm⟩

/-- Witness of C23: `Candidates.Sort` returns a permutation, and the statement holds for
three candidates with shares 100, 50, 40 under `MaxVals = 1`. -/
theorem updateVotingPower_frame_witness :
    (∀ l, (Candidates.Sort l).Perm l) ∧
      ((Candidates.updateVotingPowerWith Candidates.Sort
          [mkCandidate [2] 40 9, mkCandidate [1] 100 7, mkCandidate [3] 50 0] ⟨1⟩).map
        withoutVotingPower).Perm
        ([mkCandidate [2] 40 9, mkCandidate [1] 100 7, mkCandidate [3] 50 0].map
          withoutVotingPower) :=
  ⟨fun l => List.perm_insertionSort _ l,
    (updateVotingPower_frame Candidates.Sort (fun l => List.perm_insertionSort _ l)
      [mkCandidate [2] 40 9, mkCandidate [1] 100 7, mkCandidate [3] 50 0] ⟨1⟩).1⟩

/-! ## `Candidates.Less` as an order -/

theorem Candidate.less_irrefl (a : Candidate) : a.less a = false := by
  rw [← Bool.not_eq_true, Candidate.less_iff]
  rintro (h | ⟨_, h⟩)
  · omega
  · exact bytesCompare_irrefl _ h

theorem Candidate.less_trans {a b c : Candidate} (h1 : a.less b = true)
    (h2 : b.less c = true) : a.less c = true := by
  rw [Candidate.less_iff] at h1 h2 ⊢
  rcases h1 with h1 | ⟨e1, k1⟩ <;> rcases h2 with h2 | ⟨e2, k2⟩
  · exact Or.inl (by omega)
  · exact Or.inl (by omega)
  · exact Or.inl (by omega)
  · exact Or.inr ⟨e1.trans e2, bytesCompare_trans k1 k2⟩

/-- `Less(i, j)` holds exactly when both positions are in range and the records there
compare so. -/
theorem Candidates.Less_iff (cs : Candidates) (i j : Nat) :
    Candidates.Less cs i j = true ↔
      ∃ a b, cs[i]? = some a ∧ cs[j]? = some b ∧ a.less b = true := by
  unfold Candidates.Less
  cases hi : cs[i]? with
  | none => simp
  | some a =>
    cases hj : cs[j]? with
    | none => simp
    | some b => simp

/-- A sequence in which no entry is `Less` than the entry before it is sorted
throughout. -/
theorem pairwise_of_adjacent : ∀ (l : Candidates),
    (∀ i, Candidates.Less l (i + 1) i = false) → l.Pairwise Candidate.notAfter
  | [], _ => List.Pairwise.nil
  | [a], _ => by simp
  | a :: b :: t, h => by
    have htail : ∀ i, Candidates.Less (b :: t) (i + 1) i = false := by
      intro i
      have := h (i + 1)
      unfold Candidates.Less at this ⊢
      simpa using this
    have ih := pairwise_of_adjacent (b :: t) htail
    have hab : Candidate.notAfter a b := by
      have := h 0
      unfold Candidates.Less at this
      simpa using this
    refine List.pairwise_cons.2 ⟨fun x hx => ?_, ih⟩
    rcases List.mem_cons.1 hx with rfl | hx
    · exact hab
    · exact IsTrans.trans a b x hab ((List.pairwise_cons.1 ih).1 x hx)


/-- C22. On every list of candidates with pairwise distinct public-key bytes,
`Candidates.Less` is a strict total order: it is irreflexive and transitive, and for
every two different positions `i` and `j` exactly one of `Less(i, j)` and `Less(j, i)`
holds; hence the sorted arrangement is unique: two permutations of the list in which no
entry is `Less` than the entry before it are equal, and equal to what
`Candidates.Sort` returns. -/
theorem Candidates_Less_strict_total (cs : Candidates)
    (hnd : (cs.map (·.PubKey)).Nodup) :
    (∀ i, Candidates.Less cs i i = false) ∧
      (∀ i j k, Candidates.Less cs i j = true → Candidates.Less cs j k = true →
        Candidates.Less cs i k = true) ∧
      (∀ i j, i < cs.length → j < cs.length → i ≠ j →
        (Candidates.Less cs i j = true ∧ Candidates.Less cs j i = false) ∨
        (Candidates.Less cs i j = false ∧ Candidates.Less cs j i = true)) ∧
      (∀ l₁ l₂ : Candidates, l₁.Perm cs → l₂.Perm cs →
        (∀ i, Candidates.Less l₁ (i + 1) i = false) →
        (∀ i, Candidates.Less l₂ (i + 1) i = false) →
          l₁ = l₂ ∧ l₁ = Candidates.Sort cs) := by
  refine ⟨fun i => ?_, fun i j k hij hjk => ?_, fun i j hi hj hne => ?_,
    fun l₁ l₂ hp₁ hp₂ hs₁ hs₂ => ?_⟩
  · rw [← Bool.not_eq_true, Candidates.Less_iff]
    rintro ⟨a, b, ha, hb, hlt⟩
    rw [ha] at hb
    rw [← Option.some.inj hb, Candidate.less_irrefl] at hlt
    exact absurd hlt (by decide)
  · obtain ⟨a, b, ha, hb, hab⟩ := (Candidates.Less_iff cs i j).1 hij
    obtain ⟨b', c, hb', hc, hbc⟩ := (Candidates.Less_iff cs j k).1 hjk
    rw [hb] at hb'
    rw [← Option.some.inj hb'] at hbc
    exact (Candidates.Less_iff cs i k).2 ⟨a, c, ha, hc, Candidate.less_trans hab hbc⟩
  · have ha : cs[i]? = some cs[i] := List.getElem?_eq_getElem hi
    have hb : cs[j]? = some cs[j] := List.getElem?_eq_getElem hj
    have hkeys : cs[i].PubKey ≠ cs[j].PubKey := by
      intro heq
      have h1 : (cs.map (·.PubKey))[i]? = some cs[i].PubKey := by simp [ha]
      have h2 : (cs.map (·.PubKey))[j]? = some cs[i].PubKey := by simp [hb, heq]
      exact hne (List.getElem?_inj (by simpa using hi) hnd (h1.trans h2.symm))
    have hval : ∀ x y, Candidates.Less cs x y =
        match cs[x]?, cs[y]? with
        | some a, some b => a.less b
        | _, _ => false := fun _ _ => rfl
    rw [hval i j, hval j i, ha, hb]
    simp only []
    by_cases hlt : cs[i].less cs[j] = true
    · exact Or.inl ⟨hlt, Candidate.less_asymm hlt⟩
    · have hna : Candidate.notAfter cs[j] cs[i] := Bool.eq_false_iff.2 hlt
      exact Or.inr ⟨Bool.eq_false_iff.2 hlt,
        Candidate.less_of_notAfter hna (fun h => hkeys h.symm)⟩
  · have h1 := Candidates.Sort_unique hnd hp₁ (pairwise_of_adjacent l₁ hs₁)
    have h2 := Candidates.Sort_unique hnd hp₂ (pairwise_of_adjacent l₂ hs₂)
    exact ⟨h1.trans h2.symm, h1⟩

/-- Witness of C22: keys `[2]`, `[1]`, `[3]` with powers 40, 100, 40. -/
theorem Candidates_Less_strict_total_witness :
    ([mkCandidate [2] 40 40, mkCandidate [1] 100 100, mkCandidate [3] 40 40].map
        (·.PubKey)).Nodup ∧
      (Candidates.Less [mkCandidate [2] 40 40, mkCandidate [1] 100 100,
          mkCandidate [3] 40 40] 0 2 = true ∧
        Candidates.Less [mkCandidate [2] 40 40, mkCandidate [1] 100 100,
          mkCandidate [3] 40 40] 2 0 = false ∨
      Candidates.Less [mkCandidate [2] 40 40, mkCandidate [1] 100 100,
          mkCandidate [3] 40 40] 0 2 = false ∧
        Candidates.Less [mkCandidate [2] 40 40, mkCandidate [1] 100 100,
          mkCandidate [3] 40 40] 2 0 = true) :=
  ⟨by decide,
    (Candidates_Less_strict_total
      [mkCandidate [2] 40 40, mkCandidate [1] 100 100, mkCandidate [3] 40 40]
      (by decide)).2.2.1 0 2 (by decide) (by decide) (by decide)⟩

/-! ## Order and size of the change list -/

theorem ChangedEntry_key {old new : Validators} {e : ABCIValidator}
    (h : ChangedEntry old new e) :
    (∃ x ∈ old, e.PubKey = x.PubKey) ∨ (∃ y ∈ new, e.PubKey = y.PubKey) := by
  rcases h with ⟨y, hy, rfl, _⟩ | ⟨x, hx, rfl, _⟩ | ⟨_, _, y, hy, _, _, rfl⟩
  · exact Or.inr ⟨y, hy, rfl⟩
  · exact Or.inl ⟨x, hx, rfl⟩
  · exact Or.inr ⟨y, hy, rfl⟩

/-- A key below every key of both sets is below every key the loops emit. -/
theorem changedLoop_key_gt (key : List Nat) (l₁ l₂ : Validators)
    (h₁ : l₁.Pairwise Validator.keyLt) (h₂ : l₂.Pairwise Validator.keyLt)
    (hk₁ : ∀ x ∈ l₁, bytesCompare key x.PubKey = -1)
    (hk₂ : ∀ y ∈ l₂, bytesCompare key y.PubKey = -1) :
    ∀ e ∈ changedLoop l₁ l₂, bytesCompare key e.PubKey = -1 := by
  intro e he
  rcases ChangedEntry_key ((mem_changedLoop e l₁ l₂ h₁ h₂).1 he) with
    ⟨x, hx, hex⟩ | ⟨y, hy, hey⟩
  · rw [hex]; exact hk₁ x hx
  · rw [hey]; exact hk₂ y hy

/-- On key-sorted sets the loops of `validatorsChanged` emit strictly increasing
keys. -/
theorem changedLoop_sorted : ∀ (l₁ l₂ : Validators),
    l₁.Pairwise Validator.keyLt → l₂.Pairwise Validator.keyLt →
      (changedLoop l₁ l₂).Pairwise (fun a b => bytesCompare a.PubKey b.PubKey = -1)
  | [], l₂, _, h₂ => by
    rw [changedLoop_nil]
    exact List.pairwise_map.2 h₂
  | v :: vs, [], h₁, _ => by
    rw [changedLoop_cons_nil]
    exact List.pairwise_map.2 h₁
  | v :: vs, w :: ws, h₁, h₂ => by
    have hv := (List.pairwise_cons.1 h₁).1
    have hw := (List.pairwise_cons.1 h₂).1
    have hvs := (List.pairwise_cons.1 h₁).2
    have hws := (List.pairwise_cons.1 h₂).2
    rw [changedLoop_cons_cons]
    split_ifs with hne hgt hvp
    · have hwv : Validator.keyLt w v := (bytesCompare_swap _ _).1 hgt
      refine List.pairwise_cons.2 ⟨?_, changedLoop_sorted (v :: vs) ws h₁ hws⟩
      refine changedLoop_key_gt w.PubKey (v :: vs) ws h₁ hws (fun x hx => ?_) hw
      rcases List.mem_cons.1 hx with rfl | hx
      · exact hwv
      · exact Validator.keyLt_trans hwv (hv x hx)
    · have hvw : Validator.keyLt v w := by
        rcases bytesCompare_cases v.PubKey w.PubKey with k | k | k
        · exact k
        · exact absurd (bytesCompare_eq_zero k) hne
        · exact absurd k hgt
      refine List.pairwise_cons.2 ⟨?_, changedLoop_sorted vs (w :: ws) hvs h₂⟩
      refine changedLoop_key_gt v.PubKey vs (w :: ws) hvs h₂ hv (fun y hy => ?_)
      rcases List.mem_cons.1 hy with rfl | hy
      · exact hvw
      · exact Validator.keyLt_trans hvw (hw y hy)
    · have hk0 : v.PubKey = w.PubKey := not_not.1 hne
      refine List.pairwise_cons.2 ⟨?_, changedLoop_sorted vs ws hvs hws⟩
      refine changedLoop_key_gt w.PubKey vs ws hvs hws (fun x hx => ?_) hw
      have := hv x hx
      unfold Validator.keyLt at this
      rw [hk0] at this
      exact this
    · exact changedLoop_sorted vs ws hvs hws
termination_by l₁ l₂ => l₁.length + l₂.length

/-- The loops of `validatorsChanged` write at most `len(vs) + len(vs2)` entries, the
size of the slice `changed`. -/
theorem changedLoop_length_le : ∀ (l₁ l₂ : Validators),
    (changedLoop l₁ l₂).length ≤ l₁.length + l₂.length
  | [], l₂ => by simp [changedLoop_nil]
  | v :: vs, [] => by simp [changedLoop_cons_nil]
  | v :: vs, w :: ws => by
    rw [changedLoop_cons_cons]
    have ha := changedLoop_length_le (v :: vs) ws
    have hb := changedLoop_length_le vs (w :: ws)
    have hc := changedLoop_length_le vs ws
    simp only [List.length_cons] at ha hb ⊢
    split_ifs <;> first
      | (simp only [List.length_cons]; omega)
      | omega
termination_by l₁ l₂ => l₁.length + l₂.length

/-- On a list with pairwise distinct keys the order of validators by key is
antisymmetric. -/
theorem Validator.keyNotAfter_antisymm {l : Validators} (hnd : (l.map (·.PubKey)).Nodup) :
    ∀ a ∈ l, ∀ b ∈ l, Validator.notAfter a b → Validator.notAfter b a → a = b := by
  intro a ha b hb hab hba
  rw [Validator.keyNotAfter_iff] at hab hba
  exact List.inj_on_of_nodup_map hnd ha hb (bytesCompare_antisymm hba hab)

/-- Two arrangements of the same validators with pairwise distinct keys sort to the
same sequence. -/
theorem Validators.Sort_congr {vs vs' : Validators} (hnd : (vs.map (·.PubKey)).Nodup)
    (hp : vs'.Perm vs) : Validators.Sort vs' = Validators.Sort vs := by
  have hperm : (Validators.Sort vs').Perm (Validators.Sort vs) :=
    ((Validators.Sort_perm vs').trans hp).trans (Validators.Sort_perm vs).symm
  have hnd' : ((Validators.Sort vs').map (·.PubKey)).Nodup :=
    ((((Validators.Sort_perm vs').trans hp).map _).nodup_iff).2 hnd
  exact eq_of_perm_of_pairwise hperm (List.sorted_insertionSort _ vs')
    (List.sorted_insertionSort _ vs) (Validator.keyNotAfter_antisymm hnd')

/-- C25. For validator lists `old` and `new`, each with pairwise distinct public keys,
the entries of `old.validatorsChanged(new)` are in strictly increasing public-key byte
order (so no key is emitted twice), and the result has at most `len(old) + len(new)`
entries, independently of the order of the elements in the two input lists: any
rearrangement of `old` and of `new` gives the same change list. -/
theorem validatorsChanged_sorted (old new : Validators)
    (hold : (old.map (·.PubKey)).Nodup) (hnew : (new.map (·.PubKey)).Nodup) :
    (Validators.validatorsChanged old new).Pairwise
        (fun a b => bytesCompare a.PubKey b.PubKey = -1) ∧
      ((Validators.validatorsChanged old new).map (·.PubKey)).Nodup ∧
      (Validators.validatorsChanged old new).length ≤ old.length + new.length ∧
      ∀ old' new' : Validators, old'.Perm old → new'.Perm new →
        Validators.validatorsChanged old' new' = Validators.validatorsChanged old new := by
  have hsorted : (Validators.validatorsChanged old new).Pairwise
      (fun a b => bytesCompare a.PubKey b.PubKey = -1) :=
    changedLoop_sorted _ _ (Validators.Sort_keyLt old hold) (Validators.Sort_keyLt new hnew)
  refine ⟨hsorted, ?_, ?_, fun old' new' hpo hpn => ?_⟩
  · refine List.pairwise_map.2 (hsorted.imp fun {a b} hab heq => ?_)
    rw [heq] at hab
    exact bytesCompare_irrefl _ hab
  · have h := changedLoop_length_le (Validators.Sort old) (Validators.Sort new)
    rw [(Validators.Sort_perm old).length_eq, (Validators.Sort_perm new).length_eq] at h
    exact h
  · unfold Validators.validatorsChanged
    rw [Validators.Sort_congr hold hpo, Validators.Sort_congr hnew hpn]

/-- Witness of C25: old keys `[2]`, `[1]` against new keys `[3]`, `[2]`, `[0]`. -/
theorem validatorsChanged_sorted_witness :
    ([mkCandidate [2] 20 20, mkCandidate [1] 10 10].map (·.PubKey)).Nodup ∧
      ([mkCandidate [3] 30 30, mkCandidate [2] 25 25, mkCandidate [0] 5 5].map
        (·.PubKey)).Nodup ∧
      Validators.validatorsChanged [mkCandidate [2] 20 20, mkCandidate [1] 10 10]
          [mkCandidate [3] 30 30, mkCandidate [2] 25 25, mkCandidate [0] 5 5] =
        [⟨[0], 5⟩, ⟨[1], 0⟩, ⟨[2], 25⟩, ⟨[3], 30⟩] ∧
      (Validators.validatorsChanged [mkCandidate [2] 20 20, mkCandidate [1] 10 10]
          [mkCandidate [3] 30 30, mkCandidate [2] 25 25, mkCandidate [0] 5 5]).Pairwise
        (fun a b => bytesCompare a.PubKey b.PubKey = -1) :=
  ⟨by decide, by decide, by decide,
    (validatorsChanged_sorted [mkCandidate [2] 20 20, mkCandidate [1] 10 10]
      [mkCandidate [3] 30 30, mkCandidate [2] 25 25, mkCandidate [0] 5 5]
      (by decide) (by decide)).1⟩

/-! ## Applying the change list -/

theorem applyDiff_of_not_mem (key : List Nat) : ∀ (diff : List ABCIValidator)
    (m : List Nat → Option Int), (∀ e ∈ diff, e.PubKey ≠ key) → applyDiff m diff key = m key
  | [], _, _ => rfl
  | d :: ds, m, h => by
    have hd : key ≠ d.PubKey := fun heq => h d (List.mem_cons_self _ _) heq.symm
    have ih := applyDiff_of_not_mem key ds (applyEntry m d)
      (fun e he => h e (List.mem_cons_of_mem _ he))
    unfold applyDiff at ih ⊢
    rw [List.foldl_cons, ih]
    simp [applyEntry, hd]

/-- In a change list without repeated keys an entry decides the power of its key. -/
theorem applyDiff_of_mem (e : ABCIValidator) : ∀ (diff : List ABCIValidator)
    (m : List Nat → Option Int), (diff.map (·.PubKey)).Nodup → e ∈ diff →
      applyDiff m diff e.PubKey = if e.Power = 0 then none else some e.Power
  | [], _, _, he => absurd he (List.not_mem_nil e)
  | d :: ds, m, hnd, he => by
    rw [List.map_cons, List.nodup_cons] at hnd
    rcases List.mem_cons.1 he with rfl | he'
    · have hnot : ∀ x ∈ ds, x.PubKey ≠ e.PubKey := fun x hx heq =>
        hnd.1 (List.mem_map.2 ⟨x, hx, heq⟩)
      have h := applyDiff_of_not_mem e.PubKey ds (applyEntry m e) hnot
      unfold applyDiff at h ⊢
      rw [List.foldl_cons, h]
      simp [applyEntry]
    · have ih := applyDiff_of_mem e ds (applyEntry m d) hnd.2 he'
      unfold applyDiff at ih ⊢
      rw [List.foldl_cons, ih]

theorem powerMap_of_mem {vs : Validators} (hnd : (vs.map (·.PubKey)).Nodup)
    {v : Validator} (hv : v ∈ vs) : powerMap vs v.PubKey = some v.VotingPower := by
  unfold powerMap
  cases hf : vs.find? (fun x => decide (x.PubKey = v.PubKey)) with
  | none =>
    have := List.find?_eq_none.1 hf v hv
    simp at this
  | some x =>
    have hx : x ∈ vs := List.mem_of_find?_eq_some hf
    have hk : x.PubKey = v.PubKey := by
      have := List.find?_some hf
      simpa using this
    rw [List.inj_on_of_nodup_map hnd hx hv hk]
    rfl

theorem powerMap_of_not_mem {vs : Validators} {key : List Nat}
    (h : ∀ v ∈ vs, v.PubKey ≠ key) : powerMap vs key = none := by
  unfold powerMap
  have : vs.find? (fun x => decide (x.PubKey = key)) = none := by
    rw [List.find?_eq_none]
    intro x hx
    simpa using h x hx
  rw [this]
  rfl

/-- C24. Applying the diff reproduces the new set: for validator lists `old` and
`new`, each with pairwise distinct public keys and with every voting power in `new`
nonzero, starting from the map key to power of `old` and, for each entry of
`old.validatorsChanged(new)`, deleting the key when the power is `0` and setting the
key to the power otherwise, yields exactly the map key to power of `new`. -/
theorem validatorsChanged_apply (old new : Validators)
    (hold : (old.map (·.PubKey)).Nodup) (hnew : (new.map (·.PubKey)).Nodup)
    (hnz : ∀ w ∈ new, w.VotingPower ≠ 0) :
    applyDiff (powerMap old) (Validators.validatorsChanged old new) = powerMap new := by
  have hsorted : (Validators.validatorsChanged old new).Pairwise
      (fun a b => bytesCompare a.PubKey b.PubKey = -1) :=
    changedLoop_sorted _ _ (Validators.Sort_keyLt old hold) (Validators.Sort_keyLt new hnew)
  have hkeys : ((Validators.validatorsChanged old new).map (·.PubKey)).Nodup := by
    refine List.pairwise_map.2 (hsorted.imp fun {a b} hab heq => ?_)
    rw [heq] at hab
    exact bytesCompare_irrefl _ hab
  have hmem := mem_validatorsChanged old new hold hnew
  funext key
  by_cases hn : ∃ w ∈ new, w.PubKey = key
  · obtain ⟨w, hw, rfl⟩ := hn
    rw [powerMap_of_mem hnew hw]
    by_cases ho : ∃ v ∈ old, v.PubKey = w.PubKey
    · obtain ⟨v, hv, hvw⟩ := ho
      by_cases hp : v.VotingPower = w.VotingPower
      · -- unchanged: no entry has this key
        have hnot : ∀ e ∈ Validators.validatorsChanged old new, e.PubKey ≠ w.PubKey := by
          intro e he hek
          rcases (hmem e).1 he with ⟨y, hy, rfl, hall⟩ | ⟨x, hx, rfl, hall⟩ |
            ⟨x, hx, y, hy, hk, hne, rfl⟩
          · exact hall v hv (hvw.trans hek.symm)
          · exact hall w hw hek
          · have hyw : y = w := List.inj_on_of_nodup_map hnew hy hw hek
            have hxv : x = v :=
              List.inj_on_of_nodup_map hold hx hv (hk.trans (hek.trans hvw.symm))
            rw [hyw, hxv] at hne
            exact hne hp
        rw [applyDiff_of_not_mem w.PubKey _ _ hnot, ← hvw, powerMap_of_mem hold hv, hp]
      · have he : Validator.ABCIValidator w ∈ Validators.validatorsChanged old new :=
          (hmem _).2 (Or.inr (Or.inr ⟨v, hv, w, hw, hvw, hp, rfl⟩))
        have h := applyDiff_of_mem _ _ (powerMap old) hkeys he
        simp only [Validator.ABCIValidator] at h
        rw [h, if_neg (hnz w hw)]
    · have hall : ∀ v ∈ old, v.PubKey ≠ w.PubKey := fun v hv hk => ho ⟨v, hv, hk⟩
      have he : Validator.ABCIValidator w ∈ Validators.validatorsChanged old new :=
        (hmem _).2 (Or.inl ⟨w, hw, rfl, hall⟩)
      have h := applyDiff_of_mem _ _ (powerMap old) hkeys he
      simp only [Validator.ABCIValidator] at h
      rw [h, if_neg (hnz w hw)]
  · have hall : ∀ w ∈ new, w.PubKey ≠ key := fun w hw hk => hn ⟨w, hw, hk⟩
    rw [powerMap_of_not_mem hall]
    by_cases ho : ∃ v ∈ old, v.PubKey = key
    · obtain ⟨v, hv, rfl⟩ := ho
      have he : removedEntry v ∈ Validators.validatorsChanged old new :=
        (hmem _).2 (Or.inr (Or.inl ⟨v, hv, rfl, fun w hw => (hall w hw).symm⟩))
      have h := applyDiff_of_mem _ _ (powerMap old) hkeys he
      simp only [removedEntry] at h
      rw [h]
      simp
    · have hall2 : ∀ v ∈ old, v.PubKey ≠ key := fun v hv hk => ho ⟨v, hv, hk⟩
      have hnot : ∀ e ∈ Validators.validatorsChanged old new, e.PubKey ≠ key := by
        intro e he hek
        rcases ChangedEntry_key ((hmem e).1 he) with ⟨x, hx, hex⟩ | ⟨y, hy, hey⟩
        · exact hall2 x hx (hex.symm.trans hek)
        · exact hall y hy (hey.symm.trans hek)
      rw [applyDiff_of_not_mem key _ _ hnot, powerMap_of_not_mem hall2]

/-- Witness of C24: old keys `[2]`, `[1]` with powers 20, 10 against new keys `[3]`,
`[2]`, `[0]` with powers 30, 25, 5; after the diff key `[1]` is gone and key `[2]` has
power 25. -/
theorem validatorsChanged_apply_witness :
    ([mkCandidate [2] 20 20, mkCandidate [1] 10 10].map (·.PubKey)).Nodup ∧
      ([mkCandidate [3] 30 30, mkCandidate [2] 25 25, mkCandidate [0] 5 5].map
        (·.PubKey)).Nodup ∧
      (∀ w ∈ [mkCandidate [3] 30 30, mkCandidate [2] 25 25, mkCandidate [0] 5 5],
        w.VotingPower ≠ 0) ∧
      applyDiff (powerMap [mkCandidate [2] 20 20, mkCandidate [1] 10 10])
          (Validators.validatorsChanged [mkCandidate [2] 20 20, mkCandidate [1] 10 10]
            [mkCandidate [3] 30 30, mkCandidate [2] 25 25, mkCandidate [0] 5 5]) =
        powerMap [mkCandidate [3] 30 30, mkCandidate [2] 25 25, mkCandidate [0] 5 5] ∧
      powerMap [mkCandidate [3] 30 30, mkCandidate [2] 25 25, mkCandidate [0] 5 5] [1] =
        none ∧
      powerMap [mkCandidate [3] 30 30, mkCandidate [2] 25 25, mkCandidate [0] 5 5] [2] =
        some 25 :=
  ⟨by decide, by decide, by decide,
    validatorsChanged_apply [mkCandidate [2] 20 20, mkCandidate [1] 10 10]
      [mkCandidate [3] 30 30, mkCandidate [2] 25 25, mkCandidate [0] 5 5]
      (by decide) (by decide) (by decide),
    by decide, by decide⟩

end Stake
